import Mathlib

/-!
# monte_pi.c : a Monte-Carlo approximation of pi with POSIX threads

A shallow embedding of `src/monte_pi.c`.

* `double` arithmetic is modelled on `ℚ`: every C operation on doubles is the exact
  rational operation followed by `roundNE`, rounding to the nearest binary64 value with
  ties to even (IEEE-754 default mode, one rounding per operation, no fused operations).
  All values the program computes are far below `2^1024`, so overflow to infinity
  is not represented; a division by zero is represented by `none`.
* `int` arithmetic is modelled on `ℤ`.  In `step` and `run` an increment of `INT_MAX`
  (signed overflow, undefined in C) has no successor state.  `stepWrap` and `runWrap`
  complete them with what the compiled program does on a two's complement machine: the
  increment wraps modulo `2^32` (`wrapInt`).  The two agree wherever `step` is defined.
* The threads are modelled as an interleaving of atomic steps over the shared variables
  `done`, `totalSimulationCount`, `insideCircleCount`.  A step is the loop test
  `while(!done)`, the drawing and classification of one sample, or one critical section
  (`pthread_mutex_lock` … `pthread_mutex_unlock`).  A simulation thread therefore holds
  no mutex between two steps, and `randLock` and `insideCircleCountLock` are always free
  between steps.  The printing thread keeps `simulationCountLock` between its steps, as in
  the source, and releases it only inside `pthread_cond_wait`.  The unlocked read of
  `done` at line 41 is one atomic read.
* `main` is modelled as the trace of thread operations it performs on the handle array `tid`.
-/

namespace MontePi

/-! ## Constants (lines 11-13) -/

/-- `#define MAX_THREADS 1000` -/
def MAX_THREADS : Nat := 1000

/-- `#define CENTER .50` -/
def CENTER : ℚ := 1 / 2

/-- `#define MILLION 1000000` -/
def MILLION : Int := 1000000

/-- Largest value of the C type `int` (32 bits). -/
def INT_MAX : Int := 2147483647

/-- Smallest value of the C type `int` (32 bits). -/
def INT_MIN : Int := -2147483648

/-- The 32-bit two's complement `int` that holds `x` modulo `2^32`. -/
def wrapInt (x : Int) : Int := (x + 2147483648) % 4294967296 - 2147483648

/-! ## binary64 arithmetic -/

/-- The power `2^e` of two, for an integer exponent. -/
def pow2 (e : ℤ) : ℚ :=
  if 0 ≤ e then ((2 ^ e.toNat : ℕ) : ℚ) else 1 / ((2 ^ (-e).toNat : ℕ) : ℚ)

/-- Number of halvings that bring `n` below 2; the second argument bounds the recursion. -/
def ilog2Aux (n : Nat) : Nat → Nat
  | 0 => 0
  | k + 1 => if n < 2 then 0 else ilog2Aux (n / 2) k + 1

/-- Position of the leading bit of `n`: `2^(ilog2 n) ≤ n < 2^(ilog2 n + 1)` for `n ≠ 0`. -/
def ilog2 (n : Nat) : Nat := ilog2Aux n n

/-- Exponent `e` of the binade of a non-zero rational: `2^e ≤ |q| < 2^(e+1)`. -/
def binade (q : ℚ) : ℤ :=
  let e0 : ℤ := (ilog2 q.num.natAbs : ℤ) - (ilog2 q.den : ℤ)
  if pow2 e0 ≤ |q| then e0 else e0 - 1

/-- Spacing of the binary64 values around `q`: 53 significant bits, and the fixed spacing
`2^-1074` of the subnormal range below `2^-1022`. -/
def ulp (q : ℚ) : ℚ := pow2 (max (binade q) (-1022) - 52)

/-- Nearest integer, a tie going to the even neighbour. -/
def roundHalfEven (t : ℚ) : ℤ :=
  let f := ⌊t⌋
  if t - f < 1 / 2 then f
  else if 1 / 2 < t - f then f + 1
  else if f % 2 = 0 then f else f + 1

/-- Rounding of an exact result to binary64, round-to-nearest, ties-to-even. -/
def roundNE (q : ℚ) : ℚ :=
  if q = 0 then 0 else (roundHalfEven (q / ulp q) : ℚ) * ulp q

/-- Bisection for the integer square root: `r` is the root found so far, the first argument
counts the bits still to be decided. -/
def isqrtAux (n : Nat) : Nat → Nat → Nat
  | 0, r => r
  | k + 1, r => if (r + 2 ^ k) * (r + 2 ^ k) ≤ n then isqrtAux n k (r + 2 ^ k) else isqrtAux n k r

/-- Integer square root `⌊√n⌋`. -/
def isqrt (n : Nat) : Nat := isqrtAux n (ilog2 n / 2 + 1) 0

/-- The C library `sqrt` on a non-negative double: the exact square root rounded to binary64
(round-to-nearest, ties-to-even).  With `u` the spacing of binary64 around `√s` and
`m = ⌊√s / u⌋`, the root is rounded down to `m * u` or up to `(m+1) * u` according to the
comparison of `s / u^2` with `(m + 1/2)^2`. -/
def fsqrt (s : ℚ) : ℚ :=
  if s ≤ 0 then 0
  else
    let u : ℚ := pow2 (binade s / 2 - 52)
    let x : ℚ := s / (u * u)
    let m : ℕ := isqrt ⌊x⌋.toNat
    let h : ℚ := (m : ℚ) + 1 / 2
    if x < h * h then (m : ℚ) * u
    else if h * h < x then ((m : ℚ) + 1) * u
    else if m % 2 = 0 then (m : ℚ) * u else ((m : ℚ) + 1) * u

/-! ## Classification of a sample (lines 44-55) -/

/-- `(rand() % 1000)/1000.00` for the value `r` returned by `rand()` (line 45, 46). -/
def coordinate (r : Nat) : ℚ := roundNE (((r % 1000 : Nat) : ℚ) / 1000)

/-- Lines 50, 51: `(c-CENTER) * (c-CENTER)` for a coordinate `c`, the value of `xDistance`
and of `yDistance`. -/
def squaredOffset (c : ℚ) : ℚ := roundNE (roundNE (c - CENTER) * roundNE (c - CENTER))

/-- Line 52: `sqrt(xDistance+yDistance)`. -/
def distance (firstNumber secondNumber : ℚ) : ℚ :=
  fsqrt (roundNE (squaredOffset firstNumber + squaredOffset secondNumber))

/-- Line 55: `distance <= CENTER`. -/
def inCircle (firstNumber secondNumber : ℚ) : Bool :=
  decide (distance firstNumber secondNumber ≤ CENTER)

/-- Proof device for the samples at distance exactly one half: for the first coordinate
`i / 1000`, the second coordinates `j / 1000` with `(i-500)^2 + (j-500)^2 = 250000` are
`500 ± b` where `b^2 = 250000 - (i-500)^2`; the check evaluates the classification there. -/
def boundaryCheck (i : Nat) : Bool :=
  let r := 250000 - (i - 500) * (i - 500) - (500 - i) * (500 - i)
  let b := isqrt r
  if b * b = r then
    (decide (1000 ≤ 500 + b) || inCircle (coordinate i) (coordinate (500 + b))) &&
    (decide (500 < b) || inCircle (coordinate i) (coordinate (500 - b)))
  else true

/-- Line 91: `(double) insideCircleCount/totalSimulationCount * 4.0`.  Both `int`s convert
to binary64 exactly; the quotient is rounded, then the product with `4.0` is rounded.
`none` stands for the result of a division by zero (NaN or infinity). -/
def approximation (insideCircleCount totalSimulationCount : Int) : Option ℚ :=
  if totalSimulationCount = 0 then none
  else some (roundNE (roundNE ((insideCircleCount : ℚ) / (totalSimulationCount : ℚ)) * 4))

/-! ## The critical section of lines 63-74 -/

/-- Effect of lines 64-73 on the shared variables, with the number of
`pthread_cond_broadcast` calls made. -/
structure CountUpdate where
  totalSimulationCount : Int
  done : Bool
  broadcasts : Nat
  deriving DecidableEq, Repr

/-- Lines 64-73: `totalSimulationCount++`, then the `if` / `else if` on the new count.
`%` of C truncates towards zero (`Int.tmod`).  The increment of `INT_MAX` is undefined. -/
def countUpdate (simulationLimit totalSimulationCount : Int) (done : Bool) :
    Option CountUpdate :=
  if totalSimulationCount = INT_MAX then none
  else
    let c := totalSimulationCount + 1
    if c = simulationLimit then some ⟨c, true, 1⟩
    else if Int.tmod c MILLION = 0 then some ⟨c, done, 1⟩
    else some ⟨c, done, 0⟩

/-! ## The threads -/

/-- Program points of a `simulation` thread. -/
inductive SimPc
  /-- At the test `while(!done)` of line 41. -/
  | loopTest
  /-- Lines 44-55: about to draw a sample and compare its distance with `CENTER`. -/
  | drawSample
  /-- Lines 57-59: about to run the critical section of `insideCircleCount`. -/
  | incInside
  /-- Lines 63-74 reached with the test of line 55 false: about to run the critical section
  of `totalSimulationCount`, the current sample not counted in `insideCircleCount`. -/
  | incTotal
  /-- Lines 63-74 reached through lines 57-59: about to run the critical section of
  `totalSimulationCount`, the current sample already counted in `insideCircleCount`. -/
  | incTotalCounted
  /-- Line 76: `return NULL` executed. -/
  | returned
  deriving DecidableEq, Repr

/-- Program points of the `printing` thread. -/
inductive PrintPc
  /-- Line 86: about to lock `simulationCountLock`. -/
  | lockMutex
  /-- Line 87: at the test `while(!done)`, holding `simulationCountLock`. -/
  | loopTest
  /-- Line 89: blocked in `pthread_cond_wait`, `simulationCountLock` released. -/
  | waiting
  /-- Line 89: woken, about to re-acquire `simulationCountLock` inside `pthread_cond_wait`. -/
  | woken
  /-- Lines 90-93: about to compute and print, holding `simulationCountLock`. -/
  | emit
  /-- Lines 95-97: mutex released, `return NULL` executed. -/
  | returned
  deriving DecidableEq, Repr

/-- One line of output: the counter values read by line 91.  The text printed is
`approximation insideCircleCount totalSimulationCount`. -/
structure Emission where
  insideCircleCount : Int
  totalSimulationCount : Int
  deriving DecidableEq, Repr

/-- Global variables (lines 16-18), the program point of every thread, and the lines
printed so far (oldest first). -/
structure State where
  done : Bool
  totalSimulationCount : Int
  insideCircleCount : Int
  sims : List SimPc
  printer : PrintPc
  output : List Emission
  deriving DecidableEq, Repr

/-- State when the threads start: lines 16-18, `n_threads` simulation threads and the
printing thread at their first statement, nothing printed. -/
def init (n_threads : Nat) : State :=
  { done := false, totalSimulationCount := 0, insideCircleCount := 0,
    sims := List.replicate n_threads SimPc.loopTest, printer := PrintPc.lockMutex, output := [] }

/-- State of the mutex `simulationCountLock` between two steps: it is held (by the printing
thread) from line 86 on, except while that thread is inside `pthread_cond_wait` and after
line 95.  The simulation threads lock and unlock it within one step. -/
def simulationCountLock (s : State) : Bool :=
  match s.printer with
  | PrintPc.loopTest => true
  | PrintPc.emit => true
  | _ => false

/-- Effect of `pthread_cond_broadcast(&isMillion)` on the printing thread: a waiter is woken,
a thread that is not waiting is not affected. -/
def wake (p : PrintPc) : PrintPc :=
  match p with
  | PrintPc.waiting => PrintPc.woken
  | q => q

/-- Simulation thread `i` moves to the program point `pc`. -/
def State.setSim (s : State) (i : Nat) (pc : SimPc) : State :=
  { s with sims := s.sims.set i pc }

/-- Lines 63-74 run by simulation thread `i` as one step: the critical section of
`totalSimulationCount`, after which the thread is back at line 41.  No step while the
printing thread holds `simulationCountLock`. -/
def totalSection (simulationLimit : Int) (s : State) (i : Nat) : Option State :=
  if simulationCountLock s then none
  else
    match countUpdate simulationLimit s.totalSimulationCount s.done with
    | none => none
    | some u =>
        some ({ s with totalSimulationCount := u.totalSimulationCount, done := u.done,
                       printer := if u.broadcasts = 0 then s.printer else wake s.printer
                 }.setSim i SimPc.loopTest)

/-- One atomic step of the function `simulation` (lines 32-77) run by simulation thread `i`,
with `simulationLimit = *(int *) arg`; `r1`, `r2` are the values the two calls of
`rand()` return if the step draws a sample.  `none`: the thread cannot move (it has returned,
or the mutex it needs is held by the printing thread), or the step is undefined. -/
def simulation (simulationLimit : Int) (s : State) (i r1 r2 : Nat) : Option State :=
  match s.sims.get? i with
  | none => none
  | some SimPc.loopTest =>
      some (s.setSim i (if s.done then SimPc.returned else SimPc.drawSample))
  | some SimPc.drawSample =>
      some (s.setSim i
        (if inCircle (coordinate r1) (coordinate r2) then SimPc.incInside else SimPc.incTotal))
  | some SimPc.incInside =>
      if s.insideCircleCount = INT_MAX then none
      else some ({ s with insideCircleCount := s.insideCircleCount + 1
                   }.setSim i SimPc.incTotalCounted)
  | some SimPc.incTotal => totalSection simulationLimit s i
  | some SimPc.incTotalCounted => totalSection simulationLimit s i
  | some SimPc.returned => none

/-- One atomic step of the function `printing` (lines 83-98). -/
def printing (s : State) : Option State :=
  match s.printer with
  | PrintPc.lockMutex => some { s with printer := PrintPc.loopTest }
  | PrintPc.loopTest =>
      some { s with printer := if s.done then PrintPc.returned else PrintPc.waiting }
  | PrintPc.waiting => none
  | PrintPc.woken => some { s with printer := PrintPc.emit }
  | PrintPc.emit =>
      some { s with output := s.output ++ [⟨s.insideCircleCount, s.totalSimulationCount⟩],
                    printer := PrintPc.loopTest }
  | PrintPc.returned => none

/-- A choice of the scheduler. -/
inductive Action
  /-- Simulation thread `i` makes a step; `r1`, `r2` are the next two results of `rand()`. -/
  | sim (i r1 r2 : Nat)
  /-- The printing thread makes a step. -/
  | print
  /-- The wait of line 89 ends without a broadcast (POSIX allows spurious wakeups). -/
  | spurious
  deriving DecidableEq, Repr

/-- One step of the program. -/
def step (simulationLimit : Int) (s : State) : Action → Option State
  | Action.sim i r1 r2 => simulation simulationLimit s i r1 r2
  | Action.print => printing s
  | Action.spurious =>
      match s.printer with
      | PrintPc.waiting => some { s with printer := PrintPc.woken }
      | _ => none

/-- Execution of a schedule. -/
def run (simulationLimit : Int) (s : State) : List Action → Option State
  | [] => some s
  | a :: rest =>
      match step simulationLimit s a with
      | none => none
      | some t => run simulationLimit t rest

/-- Every thread has returned. -/
def completed (s : State) : Bool :=
  s.sims.all (fun pc => decide (pc = SimPc.returned)) && decide (s.printer = PrintPc.returned)

/-- Whether the step `a` from `s` executes the assignment `done = true` of line 68. -/
def assignsDone (simulationLimit : Int) (s : State) : Action → Bool
  | Action.sim i _ _ =>
      (decide (s.sims.get? i = some SimPc.incTotal)
          || decide (s.sims.get? i = some SimPc.incTotalCounted))
        && !simulationCountLock s
        && decide (s.totalSimulationCount + 1 = simulationLimit)
  | _ => false

/-! ## The increments of `INT_MAX` as the compiled program executes them -/

/-- Lines 64-73 when `totalSimulationCount` is `INT_MAX`: the increment wraps, then the
`if` / `else if` of lines 65-73 runs on the wrapped count. -/
def countUpdateWrapped (simulationLimit : Int) (done : Bool) : CountUpdate :=
  let c := wrapInt (INT_MAX + 1)
  if c = simulationLimit then ⟨c, true, 1⟩
  else if Int.tmod c MILLION = 0 then ⟨c, done, 1⟩
  else ⟨c, done, 0⟩

/-- The steps that `step` leaves undefined: simulation thread `i` increments a counter that
holds `INT_MAX`, and the counter wraps. -/
def overflowStep (simulationLimit : Int) (s : State) (i : Nat) : Option State :=
  match s.sims.get? i with
  | some SimPc.incInside =>
      if s.insideCircleCount = INT_MAX then
        some ({ s with insideCircleCount := wrapInt (s.insideCircleCount + 1)
                }.setSim i SimPc.incTotalCounted)
      else none
  | some pc =>
      if (pc = SimPc.incTotal ∨ pc = SimPc.incTotalCounted) ∧ simulationCountLock s = false
          ∧ s.totalSimulationCount = INT_MAX then
        let u := countUpdateWrapped simulationLimit s.done
        some ({ s with totalSimulationCount := u.totalSimulationCount, done := u.done,
                       printer := if u.broadcasts = 0 then s.printer else wake s.printer
                 }.setSim i SimPc.loopTest)
      else none
  | none => none

/-- One step of the compiled program: `step`, and the wrapping increment where `step` is
undefined. -/
def stepWrap (simulationLimit : Int) (s : State) (a : Action) : Option State :=
  match step simulationLimit s a with
  | some t => some t
  | none =>
      match a with
      | Action.sim i _ _ => overflowStep simulationLimit s i
      | _ => none

/-- Execution of a schedule by the compiled program. -/
def runWrap (simulationLimit : Int) (s : State) : List Action → Option State
  | [] => some s
  | a :: rest =>
      match stepWrap simulationLimit s a with
      | none => none
      | some t => runWrap simulationLimit t rest

/-! ## `main` (lines 104-164) -/

/-- What `main` does with the thread handles, in order. -/
inductive MainEvent
  /-- Line 133: `pthread_create (tid[slot], NULL, printing, NULL)` succeeded. -/
  | createPrinting (slot : Int)
  /-- Line 144: `pthread_create (tid[slot], NULL, simulation, &n_simulations)` succeeded. -/
  | createSimulation (slot : Int)
  /-- Line 156: `pthread_join (*tid[slot], &thread_result)`. -/
  | join (slot : Int)
  /-- Lines 137, 148: `fprintf (stderr, "Error creating thread %d.\n", i)`. -/
  | errorCreating (i : Int)
  /-- Process exit with the given status. -/
  | exit (status : Int)
  /-- Evaluation of `tid[index]` with `index` outside the array: undefined behaviour, the
  trace ends here. -/
  | outOfBounds (index : Int)
  deriving DecidableEq, Repr

/-- The element `tid[index]` of `pthread_t *tid[MAX_THREADS]` (line 113), if there is one. -/
def tid (index : Int) : Option Nat :=
  if 0 ≤ index ∧ index < (MAX_THREADS : Int) then some index.toNat else none

/-- Lines 154-157 from the index at the head of the list on, then the end of `main`. -/
def joinLoop : List Int → List MainEvent
  | [] => [MainEvent.exit 0]
  | i :: rest =>
      match tid i with
      | none => [MainEvent.outOfBounds i]
      | some _ => MainEvent.join i :: joinLoop rest

/-- Lines 142-151 from the index at the head of the list on, then the join loop over
`joins`.  `createFails i` tells whether `pthread_create` on `tid[i]` returns non-zero. -/
def createLoop (createFails : Int → Bool) (joins : List Int) : List Int → List MainEvent
  | [] => joinLoop joins
  | i :: rest =>
      match tid i with
      | none => [MainEvent.outOfBounds i]
      | some _ =>
          if createFails i then [MainEvent.errorCreating i, MainEvent.exit (-1)]
          else MainEvent.createSimulation i :: createLoop createFails joins rest

/-- The indices `0, 1, …, n-1` of a `for (i = 0; i < n; i++)` loop. -/
def loopIndices (n : Int) : List Int := (List.range n.toNat).map Int.ofNat

/-- The function `main` for the parsed worker count `n_threads`.  The allocation loop of
lines 127-130 leaves `i = MAX_THREADS`, the value printed by line 137. -/
def main (n_threads : Int) (createFails : Int → Bool) : List MainEvent :=
  match tid n_threads with
  | none => [MainEvent.outOfBounds n_threads]
  | some _ =>
      if createFails n_threads then
        [MainEvent.errorCreating (MAX_THREADS : Int), MainEvent.exit (-1)]
      else
        MainEvent.createPrinting n_threads ::
          createLoop createFails (loopIndices (n_threads + 1)) (loopIndices n_threads)

/-! ## Schedules and states used as concrete runs -/

/-- Two simulation threads step in turn: both test `done`, both draw, both increment, both
test again. -/
def raceSchedule : List Action :=
  [Action.sim 0 0 0, Action.sim 1 0 0, Action.sim 0 0 0, Action.sim 1 0 0,
   Action.sim 0 0 0, Action.sim 1 0 0, Action.sim 0 0 0, Action.sim 1 0 0]

/-- State at the end of `raceSchedule` with limit 1. -/
def raceFinal : State :=
  { done := true, totalSimulationCount := 2, insideCircleCount := 0,
    sims := [SimPc.returned, SimPc.returned], printer := PrintPc.lockMutex, output := [] }

/-- One simulation thread tests `done`, draws the centre `(0.5, 0.5)` and runs the critical
section of `insideCircleCount`. -/
def centreSchedule : List Action :=
  [Action.sim 0 0 0, Action.sim 0 500 500, Action.sim 0 0 0]

/-- State at the end of `centreSchedule`. -/
def centreState : State :=
  { done := false, totalSimulationCount := 0, insideCircleCount := 1,
    sims := [SimPc.incTotalCounted], printer := PrintPc.lockMutex, output := [] }

/-- One simulation thread runs a whole round and returns, then the printing thread starts. -/
def latePrinterSchedule : List Action :=
  [Action.sim 0 0 0, Action.sim 0 0 0, Action.sim 0 0 0, Action.sim 0 0 0,
   Action.print, Action.print]

/-- State at the end of `latePrinterSchedule` with limit 1. -/
def latePrinterFinal : State :=
  { done := true, totalSimulationCount := 1, insideCircleCount := 0,
    sims := [SimPc.returned], printer := PrintPc.returned, output := [] }

/-- One simulation thread with limit 1, about to run the critical section of lines 63-74. -/
def beforeLastIncrement : State :=
  { done := false, totalSimulationCount := 0, insideCircleCount := 0,
    sims := [SimPc.incTotal], printer := PrintPc.lockMutex, output := [] }

/-- The state after that critical section. -/
def afterLastIncrement : State :=
  { done := true, totalSimulationCount := 1, insideCircleCount := 0,
    sims := [SimPc.loopTest], printer := PrintPc.lockMutex, output := [] }

/-- One simulation thread about to draw its first sample. -/
def beforeDraw : State :=
  { done := false, totalSimulationCount := 0, insideCircleCount := 0,
    sims := [SimPc.drawSample], printer := PrintPc.lockMutex, output := [] }

/-- The state after that thread has drawn a sample inside the circle and run lines 57-59. -/
def afterCounted : State :=
  { done := false, totalSimulationCount := 0, insideCircleCount := 1,
    sims := [SimPc.incTotalCounted], printer := PrintPc.lockMutex, output := [] }

/-! ## Invariants of the runs -/

/-- Invariant behind the single assignment of `done`: once `done` is set the count has
reached the limit. -/
def DoneInv (T : Int) (s : State) : Prop := s.done = true → T ≤ s.totalSimulationCount

/-- A thread returns only after it has read `done` as true. -/
def ReturnedInv (s : State) : Prop :=
  (s.printer = PrintPc.returned ∨ SimPc.returned ∈ s.sims) → s.done = true

/-- The totals read by the emissions are in non-decreasing order and none exceeds the
current `totalSimulationCount`. -/
def OutputInv (s : State) : Prop :=
  List.Pairwise (fun e1 e2 : Emission => e1.totalSimulationCount ≤ e2.totalSimulationCount)
      s.output ∧
    ∀ e ∈ s.output, e.totalSimulationCount ≤ s.totalSimulationCount

/-- Number of simulation threads between their two counter updates: the current sample is
counted in `insideCircleCount` (lines 57-59 done) and not yet in `totalSimulationCount`
(lines 63-74 not yet run). -/
def pendingTotal (s : State) : Nat :=
  s.sims.countP (fun pc => decide (pc = SimPc.incTotalCounted))

/-- The count of samples inside the circle is ahead of the total by at most the number of
threads standing between the two critical sections; the number of threads is fixed. -/
def InsideInv (N : Nat) (s : State) : Prop :=
  s.insideCircleCount ≤ s.totalSimulationCount + (pendingTotal s : Int) ∧ s.sims.length = N

/-- The program points between the test of line 41 and the end of the critical section of
lines 63-74. -/
def SimPc.busy : SimPc → Bool
  | SimPc.drawSample => true
  | SimPc.incInside => true
  | SimPc.incTotal => true
  | SimPc.incTotalCounted => true
  | _ => false

/-- Number of simulation threads that have passed the test of line 41 and have not yet
finished the critical section of lines 63-74. -/
def inFlight (s : State) : Nat := s.sims.countP SimPc.busy

/-- Before `done` is set the count is below the limit; afterwards it is at least the limit
and can still grow by one for each thread in flight, of which there are fewer than `N`. -/
def LimitInv (T : Int) (N : Nat) (s : State) : Prop :=
  s.sims.length = N ∧ (s.done = false → s.totalSimulationCount < T) ∧
    (s.done = true →
      T ≤ s.totalSimulationCount ∧ s.totalSimulationCount + (inFlight s : Int) + 1 ≤ T + N)

/-! ## binary64 arithmetic: rounding errors and exact cases -/

theorem roundNE_zero : roundNE 0 = 0 := by
  simp [roundNE]

theorem pow2_eq (e : ℤ) : pow2 e = (2 : ℚ) ^ e := by
  unfold pow2
  split_ifs with h
  · obtain ⟨n, rfl⟩ := Int.eq_ofNat_of_zero_le h
    simp
  · have h' : 0 ≤ -e := by omega
    obtain ⟨n, hn⟩ := Int.eq_ofNat_of_zero_le h'
    have he : e = -(n : ℤ) := by omega
    subst he
    simp

theorem ilog2Aux_spec (k : Nat) : ∀ n : Nat, n ≤ k → n ≠ 0 →
    2 ^ ilog2Aux n k ≤ n ∧ n < 2 ^ (ilog2Aux n k + 1) := by
  induction k with
  | zero => intro n h1 h2; omega
  | succ k ih =>
    intro n h1 h2
    unfold ilog2Aux
    split_ifs with h
    · constructor <;> simp <;> omega
    · have h3 : n / 2 ≤ k := by omega
      have h4 : n / 2 ≠ 0 := by omega
      obtain ⟨a, b⟩ := ih (n / 2) h3 h4
      constructor
      · rw [pow_succ]; omega
      · rw [pow_succ]; omega

theorem ilog2_spec (n : Nat) (h : n ≠ 0) : 2 ^ ilog2 n ≤ n ∧ n < 2 ^ (ilog2 n + 1) :=
  ilog2Aux_spec n n (le_refl n) h

theorem binade_spec (q : ℚ) (hq : q ≠ 0) :
    (2 : ℚ) ^ binade q ≤ |q| ∧ |q| < (2 : ℚ) ^ (binade q + 1) := by
  have hn : q.num.natAbs ≠ 0 := by
    simpa using hq
  have hd : q.den ≠ 0 := q.den_nz
  obtain ⟨n1, n2⟩ := ilog2_spec _ hn
  obtain ⟨d1, d2⟩ := ilog2_spec _ hd
  have habs : |q| = (q.num.natAbs : ℚ) / (q.den : ℚ) := by
    conv_lhs => rw [← Rat.num_div_den q]
    rw [abs_div, Nat.abs_cast]
    congr 1
    rw [Nat.cast_natAbs, Int.cast_abs]
  have hdpos : (0 : ℚ) < q.den := by exact_mod_cast Nat.pos_of_ne_zero hd
  set a := ilog2 q.num.natAbs
  set b := ilog2 q.den
  have n1' : (2 : ℚ) ^ a ≤ (q.num.natAbs : ℚ) := by exact_mod_cast n1
  have n2' : (q.num.natAbs : ℚ) < (2 : ℚ) ^ (a + 1) := by exact_mod_cast n2
  have d1' : (2 : ℚ) ^ b ≤ (q.den : ℚ) := by exact_mod_cast d1
  have d2' : (q.den : ℚ) < (2 : ℚ) ^ (b + 1) := by exact_mod_cast d2
  have e1 : (2 : ℚ) ^ ((a : ℤ) - (b : ℤ)) = (2 : ℚ) ^ a / (2 : ℚ) ^ b := by
    rw [zpow_sub₀ (by norm_num : (2 : ℚ) ≠ 0)]; simp
  have hbpos : (0 : ℚ) < (2 : ℚ) ^ b := by positivity
  have hapos : (0 : ℚ) < (2 : ℚ) ^ a := by positivity
  -- upper bound: |q| < 2^(a-b+1)
  have up : |q| < (2 : ℚ) ^ ((a : ℤ) - (b : ℤ) + 1) := by
    rw [zpow_add₀ (by norm_num : (2 : ℚ) ≠ 0), e1, habs, div_lt_iff₀ hdpos]
    have : (2 : ℚ) ^ a / (2 : ℚ) ^ b * (2 : ℚ) ^ (1 : ℤ) * (q.den : ℚ)
        = (2 : ℚ) ^ (a + 1) * ((q.den : ℚ) / (2 : ℚ) ^ b) := by
      field_simp; ring
    rw [this]
    have h1 : (1 : ℚ) ≤ (q.den : ℚ) / (2 : ℚ) ^ b := by
      rw [le_div_iff₀ hbpos]; linarith
    have h2 : (0 : ℚ) < (2 : ℚ) ^ (a + 1) := by positivity
    nlinarith
  -- lower bound: 2^(a-b-1) ≤ |q|
  have lo : (2 : ℚ) ^ ((a : ℤ) - (b : ℤ) - 1) ≤ |q| := by
    rw [zpow_sub₀ (by norm_num : (2 : ℚ) ≠ 0), e1, habs, le_div_iff₀ hdpos]
    have : (2 : ℚ) ^ a / (2 : ℚ) ^ b / (2 : ℚ) ^ (1 : ℤ) * (q.den : ℚ)
        = (2 : ℚ) ^ a * ((q.den : ℚ) / (2 : ℚ) ^ (b + 1)) := by
      field_simp; ring
    rw [this]
    have h1 : (q.den : ℚ) / (2 : ℚ) ^ (b + 1) ≤ 1 := by
      rw [div_le_iff₀ (by positivity)]; linarith
    nlinarith
  unfold binade
  simp only
  rw [pow2_eq]
  split_ifs with h
  · exact ⟨h, up⟩
  · refine ⟨lo, ?_⟩
    rw [sub_add_cancel]
    exact lt_of_not_le h

theorem binade_unique (q : ℚ) (e : ℤ) (h1 : (2 : ℚ) ^ e ≤ |q|) (h2 : |q| < (2 : ℚ) ^ (e + 1)) :
    binade q = e := by
  have hq : q ≠ 0 := by
    intro h0
    rw [h0, abs_zero] at h1
    have : (0 : ℚ) < (2 : ℚ) ^ e := by positivity
    linarith
  obtain ⟨b1, b2⟩ := binade_spec q hq
  have two : (1 : ℚ) < 2 := by norm_num
  have c1 : binade q < e + 1 := (zpow_lt_zpow_iff_right₀ two).mp (lt_of_le_of_lt b1 h2)
  have c2 : e < binade q + 1 := (zpow_lt_zpow_iff_right₀ two).mp (lt_of_le_of_lt h1 b2)
  omega

theorem binade_le (q : ℚ) (k : ℤ) (hq : q ≠ 0) (h : |q| < (2 : ℚ) ^ (k + 1)) : binade q ≤ k := by
  obtain ⟨b1, _⟩ := binade_spec q hq
  have two : (1 : ℚ) < 2 := by norm_num
  have c1 : binade q < k + 1 := (zpow_lt_zpow_iff_right₀ two).mp (lt_of_le_of_lt b1 h)
  omega

theorem le_binade (q : ℚ) (k : ℤ) (hq : q ≠ 0) (h : (2 : ℚ) ^ k ≤ |q|) : k ≤ binade q := by
  obtain ⟨_, b2⟩ := binade_spec q hq
  have two : (1 : ℚ) < 2 := by norm_num
  have c1 : k < binade q + 1 := (zpow_lt_zpow_iff_right₀ two).mp (lt_of_le_of_lt h b2)
  omega

theorem roundHalfEven_err (t : ℚ) : |(roundHalfEven t : ℚ) - t| ≤ 1 / 2 := by
  have h1 : (⌊t⌋ : ℚ) ≤ t := Int.floor_le t
  have h2 : t < (⌊t⌋ : ℚ) + 1 := Int.lt_floor_add_one t
  unfold roundHalfEven
  simp only
  split_ifs with a b c
  · rw [abs_le]; constructor <;> linarith
  · rw [abs_le]; push_cast; constructor <;> linarith
  · rw [abs_le]; constructor <;> linarith
  · rw [abs_le]; push_cast
    have : t - ⌊t⌋ = 1 / 2 := le_antisymm (not_lt.mp b) (not_lt.mp a)
    constructor <;> linarith

theorem roundHalfEven_int (k : ℤ) : roundHalfEven (k : ℚ) = k := by
  unfold roundHalfEven
  simp

theorem ulp_pos (q : ℚ) : 0 < ulp q := by
  unfold ulp
  rw [pow2_eq]
  positivity

theorem roundNE_err_ulp (q : ℚ) : |roundNE q - q| ≤ ulp q / 2 := by
  unfold roundNE
  have hu := ulp_pos q
  split_ifs with h
  · rw [h]; simp; exact le_of_lt (half_pos (ulp_pos 0))
  · have := roundHalfEven_err (q / ulp q)
    have e : (roundHalfEven (q / ulp q) : ℚ) * ulp q - q
        = ((roundHalfEven (q / ulp q) : ℚ) - q / ulp q) * ulp q := by
      field_simp
    rw [e, abs_mul, abs_of_pos hu]
    nlinarith

/-- Absolute rounding error below a power of two. -/
theorem roundNE_err_abs (q : ℚ) (k : ℤ) (hk : -1022 ≤ k) (hq : |q| ≤ (2 : ℚ) ^ k) :
    |roundNE q - q| ≤ (2 : ℚ) ^ (k - 53) := by
  by_cases h0 : q = 0
  · rw [h0]; simp [roundNE]; positivity
  · have hb : binade q ≤ k := by
      apply binade_le q k h0
      have two : (1 : ℚ) < 2 := by norm_num
      have : (2 : ℚ) ^ k < (2 : ℚ) ^ (k + 1) := (zpow_lt_zpow_iff_right₀ two).mpr (by omega)
      linarith
    have hu : ulp q ≤ (2 : ℚ) ^ (k - 52) := by
      unfold ulp
      rw [pow2_eq]
      apply zpow_le_zpow_right₀ (by norm_num)
      have : max (binade q) (-1022) ≤ k := max_le hb hk
      omega
    have := roundNE_err_ulp q
    have e : (2 : ℚ) ^ (k - 53) = (2 : ℚ) ^ (k - 52) / 2 := by
      rw [show k - 53 = (k - 52) - 1 by ring, zpow_sub₀ (by norm_num : (2 : ℚ) ≠ 0)]
      simp
    rw [e]
    linarith

/-- Relative rounding error in the normal range. -/
theorem roundNE_err_rel (q : ℚ) (hq : (2 : ℚ) ^ (-1022 : ℤ) ≤ |q|) :
    |roundNE q - q| ≤ (2 : ℚ) ^ (-53 : ℤ) * |q| := by
  have h0 : q ≠ 0 := by
    intro h0
    rw [h0, abs_zero] at hq
    have : (0 : ℚ) < (2 : ℚ) ^ (-1022 : ℤ) := by positivity
    linarith
  have hb : -1022 ≤ binade q := le_binade q _ h0 hq
  obtain ⟨b1, _⟩ := binade_spec q h0
  have hu : ulp q = (2 : ℚ) ^ (binade q) * (2 : ℚ) ^ (-52 : ℤ) := by
    unfold ulp
    rw [pow2_eq, max_eq_left hb, sub_eq_add_neg, zpow_add₀ (by norm_num : (2 : ℚ) ≠ 0)]
  have := roundNE_err_ulp q
  rw [hu] at this
  have e : (2 : ℚ) ^ (-53 : ℤ) = (2 : ℚ) ^ (-52 : ℤ) / 2 := by norm_num
  rw [e]
  have p : (0 : ℚ) < (2 : ℚ) ^ (-52 : ℤ) := by positivity
  nlinarith

theorem isqrtAux_spec (n : Nat) : ∀ (k r : Nat), r * r ≤ n → n < (r + 2 ^ k) * (r + 2 ^ k) →
    isqrtAux n k r * isqrtAux n k r ≤ n ∧ n < (isqrtAux n k r + 1) * (isqrtAux n k r + 1) := by
  intro k
  induction k with
  | zero =>
    intro r h1 h2
    simpa [isqrtAux] using ⟨h1, h2⟩
  | succ k ih =>
    intro r h1 h2
    unfold isqrtAux
    split_ifs with h
    · apply ih _ h
      have : r + 2 ^ k + 2 ^ k = r + 2 ^ (k + 1) := by rw [pow_succ]; ring
      rw [this]
      exact h2
    · exact ih _ h1 (lt_of_not_le h)

theorem isqrt_spec (n : Nat) : isqrt n * isqrt n ≤ n ∧ n < (isqrt n + 1) * (isqrt n + 1) := by
  unfold isqrt
  apply isqrtAux_spec
  · simp
  · simp only [zero_add]
    rw [← pow_add]
    by_cases h0 : n = 0
    · subst h0
      positivity
    · obtain ⟨_, h2⟩ := ilog2_spec n h0
      refine lt_of_lt_of_le h2 ?_
      apply Nat.pow_le_pow_right (by norm_num)
      omega

theorem isqrt_lt (n b : Nat) (h : n < b * b) : isqrt n < b := by
  by_contra hc
  have hc' : b ≤ isqrt n := not_lt.mp hc
  have := (isqrt_spec n).1
  have : b * b ≤ isqrt n * isqrt n := Nat.mul_le_mul hc' hc'
  omega

theorem le_isqrt (n b : Nat) (h : b * b ≤ n) : b ≤ isqrt n := by
  by_contra hc
  have hc' : isqrt n + 1 ≤ b := by omega
  have := (isqrt_spec n).2
  have : (isqrt n + 1) * (isqrt n + 1) ≤ b * b := Nat.mul_le_mul hc' hc'
  omega

/-- The rounded root lies between the two neighbours `m * u` and `(m + 1) * u`. -/
theorem fsqrt_bounds (s : ℚ) (hs : 0 < s) :
    (isqrt ⌊s / (pow2 (binade s / 2 - 52) * pow2 (binade s / 2 - 52))⌋.toNat : ℚ)
        * pow2 (binade s / 2 - 52) ≤ fsqrt s ∧
      fsqrt s ≤ ((isqrt ⌊s / (pow2 (binade s / 2 - 52) * pow2 (binade s / 2 - 52))⌋.toNat : ℚ)
        + 1) * pow2 (binade s / 2 - 52) := by
  have hu : 0 < pow2 (binade s / 2 - 52) := by rw [pow2_eq]; positivity
  unfold fsqrt
  rw [if_neg (not_le.mpr hs)]
  simp only
  split_ifs <;> constructor <;> nlinarith

/-- The square root of a double below one quarter is at most one half. -/
theorem fsqrt_le_half (s : ℚ) (hs : s < 1 / 4) : fsqrt s ≤ 1 / 2 := by
  by_cases h0 : s ≤ 0
  · unfold fsqrt
    rw [if_pos h0]
    norm_num
  · have hpos : 0 < s := lt_of_not_le h0
    have hne : s ≠ 0 := ne_of_gt hpos
    have habs : |s| = s := abs_of_pos hpos
    have hb : binade s ≤ -3 := by
      apply binade_le s (-3) hne
      rw [habs]
      norm_num
      exact hs
    obtain ⟨_, b2⟩ := binade_spec s hne
    rw [habs] at b2
    set e := binade s / 2 with he
    have he2 : e ≤ -2 := by omega
    have hbe : binade s + 1 ≤ 2 * e + 2 := by omega
    have hu : pow2 (e - 52) = (2 : ℚ) ^ (e - 52) := pow2_eq _
    have hupos : (0 : ℚ) < (2 : ℚ) ^ (e - 52) := by positivity
    obtain ⟨_, up⟩ := fsqrt_bounds s hpos
    rw [← he, hu] at up
    set x := s / ((2 : ℚ) ^ (e - 52) * (2 : ℚ) ^ (e - 52)) with hx
    -- x < 2^106
    have hs2 : s < (2 : ℚ) ^ (2 * e + 2) :=
      lt_of_lt_of_le b2 (zpow_le_zpow_right₀ (by norm_num) hbe)
    have hxlt : x < (2 : ℚ) ^ (106 : ℕ) := by
      rw [hx, div_lt_iff₀ (by positivity)]
      have : (2 : ℚ) ^ (106 : ℕ) * ((2 : ℚ) ^ (e - 52) * (2 : ℚ) ^ (e - 52))
          = (2 : ℚ) ^ (2 * e + 2) := by
        rw [← zpow_natCast, ← zpow_add₀ (by norm_num : (2 : ℚ) ≠ 0),
          ← zpow_add₀ (by norm_num : (2 : ℚ) ≠ 0)]
        congr 1
        push_cast
        ring
      rw [this]
      exact hs2
    have hx0 : 0 ≤ x := by rw [hx]; positivity
    have hfl0 : 0 ≤ ⌊x⌋ := Int.floor_nonneg.mpr hx0
    have hfl : ⌊x⌋.toNat < 2 ^ 53 * 2 ^ 53 := by
      have h1 : (⌊x⌋ : ℚ) ≤ x := Int.floor_le x
      have h2 : (⌊x⌋ : ℚ) < (2 : ℚ) ^ (106 : ℕ) := lt_of_le_of_lt h1 hxlt
      have h3 : ⌊x⌋ < (2 : ℤ) ^ (106 : ℕ) := by exact_mod_cast h2
      have h4 : (⌊x⌋.toNat : ℤ) = ⌊x⌋ := Int.toNat_of_nonneg hfl0
      have h5 : (⌊x⌋.toNat : ℤ) < (2 : ℤ) ^ (106 : ℕ) := by rw [h4]; exact h3
      have h6 : ⌊x⌋.toNat < 2 ^ 106 := by exact_mod_cast h5
      calc ⌊x⌋.toNat < 2 ^ 106 := h6
        _ = 2 ^ 53 * 2 ^ 53 := by norm_num
    have hm : isqrt ⌊x⌋.toNat < 2 ^ 53 := isqrt_lt _ _ hfl
    have hm' : (isqrt ⌊x⌋.toNat : ℚ) + 1 ≤ (2 : ℚ) ^ (53 : ℕ) := by
      have : isqrt ⌊x⌋.toNat + 1 ≤ 2 ^ 53 := hm
      exact_mod_cast this
    have hfin : (2 : ℚ) ^ (53 : ℕ) * (2 : ℚ) ^ (e - 52) ≤ 1 / 2 := by
      rw [← zpow_natCast, ← zpow_add₀ (by norm_num : (2 : ℚ) ≠ 0)]
      have : (2 : ℚ) ^ ((53 : ℕ) + (e - 52) : ℤ) ≤ (2 : ℚ) ^ (-1 : ℤ) :=
        zpow_le_zpow_right₀ (by norm_num) (by push_cast; omega)
      calc (2 : ℚ) ^ ((53 : ℕ) + (e - 52) : ℤ) ≤ (2 : ℚ) ^ (-1 : ℤ) := this
        _ = 1 / 2 := by norm_num
    calc fsqrt s ≤ ((isqrt ⌊x⌋.toNat : ℚ) + 1) * (2 : ℚ) ^ (e - 52) := up
      _ ≤ (2 : ℚ) ^ (53 : ℕ) * (2 : ℚ) ^ (e - 52) := by nlinarith
      _ ≤ 1 / 2 := hfin

/-- The square root of a double in `[1/4 + 2^-52, 1)` is above one half. -/
theorem half_lt_fsqrt (s : ℚ) (h1 : 1 / 4 + (2 : ℚ) ^ (-52 : ℤ) ≤ s) (h2 : s < 1) :
    1 / 2 < fsqrt s := by
  have hp : (0 : ℚ) < (2 : ℚ) ^ (-52 : ℤ) := by positivity
  have hpos : 0 < s := by linarith
  have hne : s ≠ 0 := ne_of_gt hpos
  have habs : |s| = s := abs_of_pos hpos
  have hb1 : -2 ≤ binade s := by
    apply le_binade s (-2) hne
    rw [habs]
    norm_num
    linarith
  have hb2 : binade s ≤ -1 := by
    apply binade_le s (-1) hne
    rw [habs]
    norm_num
    exact h2
  have he : binade s / 2 = -1 := by omega
  obtain ⟨lo, _⟩ := fsqrt_bounds s hpos
  rw [he, pow2_eq] at lo
  have hu : (2 : ℚ) ^ ((-1 : ℤ) - 52) = 1 / (2 : ℚ) ^ (53 : ℕ) := by norm_num
  rw [hu] at lo
  set x := s / (1 / (2 : ℚ) ^ (53 : ℕ) * (1 / (2 : ℚ) ^ (53 : ℕ))) with hx
  have hxe : x = s * (2 : ℚ) ^ (106 : ℕ) := by
    rw [hx, div_eq_iff (by positivity)]
    have : (2 : ℚ) ^ (106 : ℕ) * (1 / (2 : ℚ) ^ (53 : ℕ) * (1 / (2 : ℚ) ^ (53 : ℕ))) = 1 := by
      norm_num
    rw [mul_assoc, this, mul_one]
  have hxge : (((2 ^ 52 + 1) * (2 ^ 52 + 1) : ℕ) : ℚ) ≤ x := by
    rw [hxe]
    have e52 : (2 : ℚ) ^ (-52 : ℤ) = 1 / (2 : ℚ) ^ (52 : ℕ) := by norm_num
    rw [e52] at h1
    have : (1 / 4 + 1 / (2 : ℚ) ^ (52 : ℕ)) * (2 : ℚ) ^ (106 : ℕ) ≤ s * (2 : ℚ) ^ (106 : ℕ) := by
      apply mul_le_mul_of_nonneg_right h1 (by positivity)
    refine le_trans ?_ this
    norm_num
  have hfl : ((2 ^ 52 + 1) * (2 ^ 52 + 1) : ℕ) ≤ ⌊x⌋.toNat := by
    have h3 : (((2 ^ 52 + 1) * (2 ^ 52 + 1) : ℕ) : ℤ) ≤ ⌊x⌋ := by
      apply Int.le_floor.mpr
      exact_mod_cast hxge
    have h4 : 0 ≤ ⌊x⌋ := le_trans (Int.natCast_nonneg _) h3
    have h5 : (⌊x⌋.toNat : ℤ) = ⌊x⌋ := Int.toNat_of_nonneg h4
    have h6 : (((2 ^ 52 + 1) * (2 ^ 52 + 1) : ℕ) : ℤ) ≤ (⌊x⌋.toNat : ℤ) := by rw [h5]; exact h3
    exact_mod_cast h6
  have hm : 2 ^ 52 + 1 ≤ isqrt ⌊x⌋.toNat := le_isqrt _ _ hfl
  have hm' : ((2 : ℚ) ^ (52 : ℕ) + 1) ≤ (isqrt ⌊x⌋.toNat : ℚ) := by exact_mod_cast hm
  have hpos53 : (0 : ℚ) < 1 / (2 : ℚ) ^ (53 : ℕ) := by positivity
  calc (1 : ℚ) / 2 < ((2 : ℚ) ^ (52 : ℕ) + 1) * (1 / (2 : ℚ) ^ (53 : ℕ)) := by norm_num
    _ ≤ (isqrt ⌊x⌋.toNat : ℚ) * (1 / (2 : ℚ) ^ (53 : ℕ)) := by nlinarith
    _ ≤ fsqrt s := lo

/-- The value `fsqrt s` is the correctly rounded square root: it is a multiple `K * u` of the
spacing `u` of binary64 around the root, with a 53-bit `K`, and the exact root lies within
half a spacing of it. -/
theorem fsqrt_nearest (s : ℚ) (hs : 0 < s) :
    ∃ K : ℕ, 2 ^ 52 ≤ K ∧ K ≤ 2 ^ 53 ∧ fsqrt s = (K : ℚ) * pow2 (binade s / 2 - 52) ∧
      (fsqrt s - pow2 (binade s / 2 - 52) / 2) ^ 2 ≤ s ∧
      s ≤ (fsqrt s + pow2 (binade s / 2 - 52) / 2) ^ 2 := by
  have hne : s ≠ 0 := ne_of_gt hs
  have habs : |s| = s := abs_of_pos hs
  obtain ⟨b1, b2⟩ := binade_spec s hne
  rw [habs] at b1 b2
  set e := binade s / 2 with he
  have hbe1 : 2 * e ≤ binade s := by omega
  have hbe2 : binade s + 1 ≤ 2 * e + 2 := by omega
  have hu : pow2 (e - 52) = (2 : ℚ) ^ (e - 52) := pow2_eq _
  have hupos : (0 : ℚ) < (2 : ℚ) ^ (e - 52) := by positivity
  have hs1 : (2 : ℚ) ^ (2 * e) ≤ s :=
    le_trans (zpow_le_zpow_right₀ (by norm_num) hbe1) b1
  have hs2 : s < (2 : ℚ) ^ (2 * e + 2) :=
    lt_of_lt_of_le b2 (zpow_le_zpow_right₀ (by norm_num) hbe2)
  have hfs : fsqrt s =
      (if s / (pow2 (e - 52) * pow2 (e - 52))
            < ((isqrt ⌊s / (pow2 (e - 52) * pow2 (e - 52))⌋.toNat : ℚ) + 1 / 2)
              * ((isqrt ⌊s / (pow2 (e - 52) * pow2 (e - 52))⌋.toNat : ℚ) + 1 / 2)
        then (isqrt ⌊s / (pow2 (e - 52) * pow2 (e - 52))⌋.toNat : ℚ) * pow2 (e - 52)
        else if ((isqrt ⌊s / (pow2 (e - 52) * pow2 (e - 52))⌋.toNat : ℚ) + 1 / 2)
              * ((isqrt ⌊s / (pow2 (e - 52) * pow2 (e - 52))⌋.toNat : ℚ) + 1 / 2)
            < s / (pow2 (e - 52) * pow2 (e - 52))
        then ((isqrt ⌊s / (pow2 (e - 52) * pow2 (e - 52))⌋.toNat : ℚ) + 1) * pow2 (e - 52)
        else if isqrt ⌊s / (pow2 (e - 52) * pow2 (e - 52))⌋.toNat % 2 = 0
        then (isqrt ⌊s / (pow2 (e - 52) * pow2 (e - 52))⌋.toNat : ℚ) * pow2 (e - 52)
        else ((isqrt ⌊s / (pow2 (e - 52) * pow2 (e - 52))⌋.toNat : ℚ) + 1) * pow2 (e - 52)) := by
    unfold fsqrt
    rw [if_neg (not_le.mpr hs)]
  rw [hfs, hu]
  set u : ℚ := (2 : ℚ) ^ (e - 52) with hudef
  set x := s / (u * u) with hx
  have hsx : s = x * (u * u) := by
    rw [hx, div_mul_cancel₀]
    positivity
  have huu : u * u * (2 : ℚ) ^ (104 : ℕ) = (2 : ℚ) ^ (2 * e) := by
    rw [hudef, ← zpow_natCast, ← zpow_add₀ (by norm_num : (2 : ℚ) ≠ 0),
      ← zpow_add₀ (by norm_num : (2 : ℚ) ≠ 0)]
    congr 1
    push_cast
    ring
  have huu2 : u * u * (2 : ℚ) ^ (106 : ℕ) = (2 : ℚ) ^ (2 * e + 2) := by
    rw [hudef, ← zpow_natCast, ← zpow_add₀ (by norm_num : (2 : ℚ) ≠ 0),
      ← zpow_add₀ (by norm_num : (2 : ℚ) ≠ 0)]
    congr 1
    push_cast
    ring
  have huupos : 0 < u * u := by positivity
  have hx1 : (2 : ℚ) ^ (104 : ℕ) ≤ x := by
    rw [hx, le_div_iff₀ huupos, mul_comm, huu]
    exact hs1
  have hx2 : x < (2 : ℚ) ^ (106 : ℕ) := by
    rw [hx, div_lt_iff₀ huupos, mul_comm, huu2]
    exact hs2
  have hx0 : 0 ≤ x := le_trans (by positivity) hx1
  have hfl0 : 0 ≤ ⌊x⌋ := Int.floor_nonneg.mpr hx0
  have hcast : (⌊x⌋.toNat : ℤ) = ⌊x⌋ := Int.toNat_of_nonneg hfl0
  have hflle : ((⌊x⌋.toNat : ℕ) : ℚ) ≤ x := by
    have : ((⌊x⌋.toNat : ℤ) : ℚ) ≤ x := by rw [hcast]; exact Int.floor_le x
    exact_mod_cast this
  have hfllt : x < ((⌊x⌋.toNat : ℕ) : ℚ) + 1 := by
    have : x < ((⌊x⌋.toNat : ℤ) : ℚ) + 1 := by rw [hcast]; exact Int.lt_floor_add_one x
    exact_mod_cast this
  obtain ⟨q1, q2⟩ := isqrt_spec ⌊x⌋.toNat
  set m := isqrt ⌊x⌋.toNat with hm
  have hmx1 : (m : ℚ) * (m : ℚ) ≤ x := by
    have : ((m * m : ℕ) : ℚ) ≤ ((⌊x⌋.toNat : ℕ) : ℚ) := by exact_mod_cast q1
    push_cast at this
    linarith
  have hmx2 : x < ((m : ℚ) + 1) * ((m : ℚ) + 1) := by
    have : ((⌊x⌋.toNat : ℕ) : ℚ) + 1 ≤ (((m + 1) * (m + 1) : ℕ) : ℚ) := by exact_mod_cast q2
    push_cast at this
    linarith
  have hm52 : 2 ^ 52 ≤ m := by
    apply le_isqrt
    have h3 : ((2 ^ 52 * 2 ^ 52 : ℕ) : ℤ) ≤ ⌊x⌋ := by
      apply Int.le_floor.mpr
      refine le_trans ?_ hx1
      norm_num
    have h6 : ((2 ^ 52 * 2 ^ 52 : ℕ) : ℤ) ≤ (⌊x⌋.toNat : ℤ) := by rw [hcast]; exact h3
    exact_mod_cast h6
  have hm53 : m < 2 ^ 53 := by
    apply isqrt_lt
    have h2 : ((⌊x⌋.toNat : ℕ) : ℚ) < (2 : ℚ) ^ (106 : ℕ) := lt_of_le_of_lt hflle hx2
    have h6 : ⌊x⌋.toNat < 2 ^ 106 := by exact_mod_cast h2
    calc ⌊x⌋.toNat < 2 ^ 106 := h6
      _ = 2 ^ 53 * 2 ^ 53 := by norm_num
  have hmpos : (1 : ℚ) ≤ (m : ℚ) := by
    have : 1 ≤ m := le_trans (by norm_num) hm52
    exact_mod_cast this
  have hlow : ((m : ℚ) - 1 / 2) ^ 2 ≤ x := by
    have : ((m : ℚ) - 1 / 2) ^ 2 = (m : ℚ) * (m : ℚ) - (m : ℚ) + 1 / 4 := by ring
    rw [this]
    linarith
  have hhigh : x ≤ ((m : ℚ) + 3 / 2) ^ 2 := by
    have : ((m : ℚ) + 3 / 2) ^ 2 = ((m : ℚ) + 1) * ((m : ℚ) + 1) + (m : ℚ) + 5 / 4 := by ring
    rw [this]
    linarith
  split_ifs with c1 c2 c3
  · refine ⟨m, hm52, le_of_lt hm53, rfl, ?_, ?_⟩
    · rw [hsx]
      have : ((m : ℚ) * u - u / 2) ^ 2 = ((m : ℚ) - 1 / 2) ^ 2 * (u * u) := by ring
      rw [this]
      exact mul_le_mul_of_nonneg_right hlow (le_of_lt huupos)
    · rw [hsx]
      have : ((m : ℚ) * u + u / 2) ^ 2 = (((m : ℚ) + 1 / 2) * ((m : ℚ) + 1 / 2)) * (u * u) := by
        ring
      rw [this]
      exact mul_le_mul_of_nonneg_right (le_of_lt c1) (le_of_lt huupos)
  · refine ⟨m + 1, by omega, by omega, by push_cast; ring, ?_, ?_⟩
    · rw [hsx]
      have : (((m : ℚ) + 1) * u - u / 2) ^ 2
          = (((m : ℚ) + 1 / 2) * ((m : ℚ) + 1 / 2)) * (u * u) := by ring
      rw [this]
      exact mul_le_mul_of_nonneg_right (le_of_lt c2) (le_of_lt huupos)
    · rw [hsx]
      have : (((m : ℚ) + 1) * u + u / 2) ^ 2 = ((m : ℚ) + 3 / 2) ^ 2 * (u * u) := by ring
      rw [this]
      exact mul_le_mul_of_nonneg_right hhigh (le_of_lt huupos)
  · refine ⟨m, hm52, le_of_lt hm53, rfl, ?_, ?_⟩
    · rw [hsx]
      have : ((m : ℚ) * u - u / 2) ^ 2 = ((m : ℚ) - 1 / 2) ^ 2 * (u * u) := by ring
      rw [this]
      exact mul_le_mul_of_nonneg_right hlow (le_of_lt huupos)
    · rw [hsx]
      have : ((m : ℚ) * u + u / 2) ^ 2 = (((m : ℚ) + 1 / 2) * ((m : ℚ) + 1 / 2)) * (u * u) := by
        ring
      rw [this]
      exact mul_le_mul_of_nonneg_right (not_lt.mp c2) (le_of_lt huupos)
  · refine ⟨m + 1, by omega, by omega, by push_cast; ring, ?_, ?_⟩
    · rw [hsx]
      have : (((m : ℚ) + 1) * u - u / 2) ^ 2
          = (((m : ℚ) + 1 / 2) * ((m : ℚ) + 1 / 2)) * (u * u) := by ring
      rw [this]
      exact mul_le_mul_of_nonneg_right (not_lt.mp c1) (le_of_lt huupos)
    · rw [hsx]
      have : (((m : ℚ) + 1) * u + u / 2) ^ 2 = ((m : ℚ) + 3 / 2) ^ 2 * (u * u) := by ring
      rw [this]
      exact mul_le_mul_of_nonneg_right hhigh (le_of_lt huupos)

theorem boundaryCheck_all : ∀ i < 1000, boundaryCheck i = true := by
  decide!

theorem isqrt_sq (c : Nat) : isqrt (c * c) = c := by
  have h1 : c ≤ isqrt (c * c) := le_isqrt _ _ (le_refl _)
  have h2 : isqrt (c * c) < c + 1 := isqrt_lt _ _ (by nlinarith)
  omega

/-- Distance from 500 of an index, as a natural number. -/
theorem offset_cases (i : Nat) (hi : i < 1000) :
    ∃ a : Nat, a ≤ 500 ∧ (i - 500) * (i - 500) + (500 - i) * (500 - i) = a * a ∧
      ((i : ℤ) - 500) ^ 2 = ((a * a : ℕ) : ℤ) ∧ (i = 500 + a ∨ i = 500 - a) := by
  by_cases h : 500 ≤ i
  · refine ⟨i - 500, by omega, ?_, ?_, Or.inl (by omega)⟩
    · have : 500 - i = 0 := by omega
      rw [this]; simp
    · have : ((i - 500 : ℕ) : ℤ) = (i : ℤ) - 500 := by omega
      push_cast
      rw [this]; ring
  · refine ⟨500 - i, by omega, ?_, ?_, Or.inr (by omega)⟩
    · have : i - 500 = 0 := by omega
      rw [this]; simp
    · have : ((500 - i : ℕ) : ℤ) = 500 - (i : ℤ) := by omega
      push_cast
      rw [this]; ring

theorem boundary_inCircle (i j : Nat) (hi : i < 1000) (hj : j < 1000)
    (hA : ((i : ℤ) - 500) ^ 2 + ((j : ℤ) - 500) ^ 2 = 250000) :
    inCircle (coordinate i) (coordinate j) = true := by
  obtain ⟨a, ha, ha1, ha2, -⟩ := offset_cases i hi
  obtain ⟨c, hc, -, hc2, hc3⟩ := offset_cases j hj
  rw [ha2, hc2] at hA
  have hN : a * a + c * c = 250000 := by exact_mod_cast hA
  have hb := boundaryCheck_all i hi
  unfold boundaryCheck at hb
  simp only at hb
  have hr : 250000 - (i - 500) * (i - 500) - (500 - i) * (500 - i) = c * c := by
    rw [Nat.sub_sub, ha1]
    omega
  rw [hr, isqrt_sq] at hb
  simp only [if_true, Bool.and_eq_true, Bool.or_eq_true, decide_eq_true_eq] at hb
  obtain ⟨hb1, hb2⟩ := hb
  rcases hc3 with h | h
  · rcases hb1 with hb1 | hb1
    · omega
    · rw [h]; exact hb1
  · rcases hb2 with hb2 | hb2
    · omega
    · rw [h]; exact hb2

theorem eps_eq : (2 : ℚ) ^ ((0 : ℤ) - 53) = 1 / 9007199254740992 := by norm_num

theorem coordinate_eq (i : Nat) (hi : i < 1000) : coordinate i = roundNE ((i : ℚ) / 1000) := by
  unfold coordinate
  rw [Nat.mod_eq_of_lt hi]

/-- The value of lines 50, 51 is within `2^-51` of the exact square of the offset. -/
theorem squaredOffset_err (i : Nat) (hi : i < 1000) :
    |squaredOffset (coordinate i) - ((i : ℚ) / 1000 - 1 / 2) * ((i : ℚ) / 1000 - 1 / 2)|
      ≤ 4 / 9007199254740992 := by
  have hi' : (i : ℚ) < 1000 := by exact_mod_cast hi
  have hi0 : (0 : ℚ) ≤ (i : ℚ) := Nat.cast_nonneg i
  set q0 : ℚ := (i : ℚ) / 1000 with hq0
  have hq1 : 0 ≤ q0 := by rw [hq0]; positivity
  have hq2 : q0 < 1 := by rw [hq0, div_lt_one (by norm_num)]; exact hi'
  rw [coordinate_eq i hi]
  have one : (2 : ℚ) ^ (0 : ℤ) = 1 := by norm_num
  have h1 := roundNE_err_abs q0 0 (by norm_num) (by rw [one, abs_le]; constructor <;> linarith)
  rw [eps_eq] at h1
  set x := roundNE q0 with hx
  rw [abs_le] at h1
  have h2 := roundNE_err_abs (x - CENTER) 0 (by norm_num)
    (by rw [one, abs_le]; unfold CENTER; constructor <;> linarith)
  rw [eps_eq] at h2
  unfold squaredOffset
  set d := roundNE (x - CENTER) with hd
  rw [abs_le] at h2
  unfold CENTER at h2
  have hd1 : -(1 / 2 + 2 / 9007199254740992) ≤ d := by linarith
  have hd2 : d ≤ 1 / 2 + 2 / 9007199254740992 := by linarith
  have hdd : |d * d| ≤ 1 := by
    rw [abs_le]; constructor <;> nlinarith
  have h3 := roundNE_err_abs (d * d) 0 (by norm_num) (by rw [one]; exact hdd)
  rw [eps_eq] at h3
  rw [abs_le] at h3
  set a := q0 - 1 / 2 with ha
  have hda1 : -(2 / 9007199254740992) ≤ d - a := by linarith
  have hda2 : d - a ≤ 2 / 9007199254740992 := by linarith
  have hs1 : -(1 + 2 / 9007199254740992) ≤ d + a := by linarith
  have hs2 : d + a ≤ 1 + 2 / 9007199254740992 := by linarith
  have hprod : |(d - a) * (d + a)| ≤ 2 / 9007199254740992 * (1 + 2 / 9007199254740992) := by
    rw [abs_mul]
    apply mul_le_mul
    · rw [abs_le]; exact ⟨hda1, hda2⟩
    · rw [abs_le]; exact ⟨hs1, hs2⟩
    · exact abs_nonneg _
    · norm_num
  rw [abs_le] at hprod
  have e : d * d - a * a = (d - a) * (d + a) := by ring
  rw [abs_le]
  constructor
  · have := hprod.1
    have := h3.1
    nlinarith
  · have := hprod.2
    have := h3.2
    nlinarith

/-- The argument of `sqrt` at line 52 is within `9 * 2^-53` of the exact squared distance. -/
theorem sumSquares_err (i j : Nat) (hi : i < 1000) (hj : j < 1000) :
    |roundNE (squaredOffset (coordinate i) + squaredOffset (coordinate j))
        - ((((i : ℤ) - 500) ^ 2 + ((j : ℤ) - 500) ^ 2 : ℤ) : ℚ) / 1000000|
      ≤ 9 / 9007199254740992 := by
  have hi' : (i : ℚ) < 1000 := by exact_mod_cast hi
  have hi0 : (0 : ℚ) ≤ (i : ℚ) := Nat.cast_nonneg i
  have hj' : (j : ℚ) < 1000 := by exact_mod_cast hj
  have hj0 : (0 : ℚ) ≤ (j : ℚ) := Nat.cast_nonneg j
  have hx := squaredOffset_err i hi
  have hy := squaredOffset_err j hj
  set xd := squaredOffset (coordinate i)
  set yd := squaredOffset (coordinate j)
  rw [abs_le] at hx hy
  have ea : ((i : ℚ) / 1000 - 1 / 2) * ((i : ℚ) / 1000 - 1 / 2)
      = ((i : ℚ) - 500) ^ 2 / 1000000 := by ring
  have eb : ((j : ℚ) / 1000 - 1 / 2) * ((j : ℚ) / 1000 - 1 / 2)
      = ((j : ℚ) - 500) ^ 2 / 1000000 := by ring
  rw [ea] at hx
  rw [eb] at hy
  have ba : ((i : ℚ) - 500) ^ 2 ≤ 250000 := by nlinarith
  have bb : ((j : ℚ) - 500) ^ 2 ≤ 250000 := by nlinarith
  have pa : 0 ≤ ((i : ℚ) - 500) ^ 2 := sq_nonneg _
  have pb : 0 ≤ ((j : ℚ) - 500) ^ 2 := sq_nonneg _
  have one : (2 : ℚ) ^ (0 : ℤ) = 1 := by norm_num
  have h1 := roundNE_err_abs (xd + yd) 0 (by norm_num)
    (by rw [one, abs_le]; constructor <;> linarith)
  rw [eps_eq, abs_le] at h1
  push_cast
  rw [abs_le]
  constructor <;> linarith

theorem offset_sq_le (i : Nat) (hi : i < 1000) : ((i : ℤ) - 500) ^ 2 ≤ 250000 := by
  have h1 : (i : ℤ) < 1000 := by exact_mod_cast hi
  have h0 : (0 : ℤ) ≤ (i : ℤ) := Int.natCast_nonneg i
  nlinarith

theorem roundHalfEven_le (t : ℚ) (N : ℤ) (h : t ≤ N) : roundHalfEven t ≤ N := by
  have h1 : (⌊t⌋ : ℚ) ≤ t := Int.floor_le t
  have hf : ⌊t⌋ ≤ N := by
    have : (⌊t⌋ : ℚ) ≤ (N : ℚ) := le_trans h1 h
    exact_mod_cast this
  unfold roundHalfEven
  simp only
  by_cases hlt : t - ⌊t⌋ < 1 / 2
  · rw [if_pos hlt]; exact hf
  · have hne : ⌊t⌋ ≠ N := by
      intro he
      rw [he] at hlt
      apply hlt
      linarith
    have : ⌊t⌋ + 1 ≤ N := by omega
    rw [if_neg hlt]
    split_ifs <;> omega

theorem le_roundHalfEven (t : ℚ) (N : ℤ) (h : (N : ℚ) ≤ t) : N ≤ roundHalfEven t := by
  have hf : N ≤ ⌊t⌋ := Int.le_floor.mpr h
  unfold roundHalfEven
  simp only
  split_ifs <;> omega

/-- A multiple `K * 2^e` of a power of two with at most 53 significant bits and an exponent
in the binary64 range is a binary64 value: rounding leaves it unchanged. -/
theorem roundNE_grid (K e : ℤ) (hK : |K| ≤ 2 ^ 53) (he : -1074 ≤ e) :
    roundNE ((K : ℚ) * (2 : ℚ) ^ e) = (K : ℚ) * (2 : ℚ) ^ e := by
  set q : ℚ := (K : ℚ) * (2 : ℚ) ^ e with hq
  by_cases h0 : q = 0
  · rw [h0]; simp [roundNE]
  · have hpe : (0 : ℚ) < (2 : ℚ) ^ e := by positivity
    have habs : |q| = ((|K| : ℤ) : ℚ) * (2 : ℚ) ^ e := by
      rw [hq, abs_mul, abs_of_pos hpe, Int.cast_abs]
    have two : (1 : ℚ) < 2 := by norm_num
    have hex : ∃ M : ℤ, q = (M : ℚ) * ulp q := by
      by_cases hK2 : |K| = 2 ^ 53
      · have hq2 : |q| = (2 : ℚ) ^ (53 + e) := by
          rw [habs, hK2, zpow_add₀ (by norm_num : (2 : ℚ) ≠ 0)]
          norm_num
        have hb : binade q = 53 + e := by
          apply binade_unique
          · rw [hq2]
          · rw [hq2]
            exact (zpow_lt_zpow_iff_right₀ two).mpr (by omega)
        have hu : ulp q = (2 : ℚ) ^ (1 + e) := by
          unfold ulp
          rw [pow2_eq, hb]
          congr 1
          rw [max_eq_left (by omega)]
          ring
        refine ⟨K / 2, ?_⟩
        have hKeven : K = 2 * (K / 2) := by
          rcases abs_cases K with ⟨h1, _⟩ | ⟨h1, _⟩ <;> rw [h1] at hK2 <;> omega
        rw [hu, zpow_add₀ (by norm_num : (2 : ℚ) ≠ 0), hq]
        conv_lhs => rw [hKeven]
        push_cast
        ring
      · have hK3 : |K| ≤ 2 ^ 53 - 1 := by
          have := lt_of_le_of_ne hK hK2
          omega
        have hq2 : |q| < (2 : ℚ) ^ (53 + e) := by
          rw [habs, zpow_add₀ (by norm_num : (2 : ℚ) ≠ 0)]
          have : ((|K| : ℤ) : ℚ) ≤ (2 : ℚ) ^ (53 : ℤ) - 1 := by
            have : ((|K| : ℤ) : ℚ) ≤ ((2 ^ 53 - 1 : ℤ) : ℚ) := by exact_mod_cast hK3
            refine le_trans this ?_
            norm_num
          nlinarith
        have hb : binade q ≤ 52 + e := by
          apply binade_le q _ h0
          have : (52 + e + 1 : ℤ) = 53 + e := by ring
          rw [this]
          exact hq2
        have hE : max (binade q) (-1022) - 52 ≤ e := by
          have : max (binade q) (-1022) ≤ e + 52 := max_le (by omega) (by omega)
          omega
        obtain ⟨n, hn⟩ := Int.eq_ofNat_of_zero_le (sub_nonneg.mpr hE)
        refine ⟨K * 2 ^ n, ?_⟩
        unfold ulp
        rw [pow2_eq, hq]
        have : e = (max (binade ((K : ℚ) * (2 : ℚ) ^ e)) (-1022) - 52) + (n : ℤ) := by
          rw [← hq]; omega
        conv_lhs => rw [this, zpow_add₀ (by norm_num : (2 : ℚ) ≠ 0)]
        push_cast
        rw [zpow_natCast]
        ring
    obtain ⟨M, hM⟩ := hex
    have hu := ulp_pos q
    unfold roundNE
    rw [if_neg h0]
    have : q / ulp q = (M : ℚ) := by
      rw [div_eq_iff (ne_of_gt hu)]
      exact hM
    rw [this, roundHalfEven_int]
    exact hM.symm

/-- The rounded value is a multiple of the spacing with at most 53 significant bits. -/
theorem roundNE_repr (q : ℚ) (hq : q ≠ 0) :
    ∃ K : ℤ, |K| ≤ 2 ^ 53 ∧
      roundNE q = (K : ℚ) * (2 : ℚ) ^ (max (binade q) (-1022) - 52) := by
  refine ⟨roundHalfEven (q / ulp q), ?_, ?_⟩
  · obtain ⟨_, b2⟩ := binade_spec q hq
    have hu := ulp_pos q
    have hle : (2 : ℚ) ^ (binade q - 52) ≤ ulp q := by
      unfold ulp
      rw [pow2_eq]
      apply zpow_le_zpow_right₀ (by norm_num)
      have := le_max_left (binade q) (-1022)
      omega
    have hb : |q| ≤ (2 : ℚ) ^ (53 : ℤ) * ulp q := by
      have e : (2 : ℚ) ^ (binade q + 1) = (2 : ℚ) ^ (53 : ℤ) * (2 : ℚ) ^ (binade q - 52) := by
        rw [← zpow_add₀ (by norm_num : (2 : ℚ) ≠ 0)]
        congr 1
        ring
      rw [e] at b2
      have p : (0 : ℚ) < (2 : ℚ) ^ (53 : ℤ) := by positivity
      nlinarith
    have hb' : |q / ulp q| ≤ (2 : ℚ) ^ (53 : ℤ) := by
      rw [abs_div, abs_of_pos hu, div_le_iff₀ hu]
      exact hb
    rw [abs_le] at hb'
    have c53 : (2 : ℚ) ^ (53 : ℤ) = ((2 ^ 53 : ℤ) : ℚ) := by norm_num
    rw [c53] at hb'
    rw [abs_le]
    constructor
    · apply le_roundHalfEven
      push_cast
      have := hb'.1
      push_cast at this
      exact this
    · apply roundHalfEven_le
      exact hb'.2
  · unfold roundNE
    rw [if_neg hq]
    unfold ulp
    rw [pow2_eq]

/-- Scaling by four commutes with rounding in the normal range. -/
theorem roundNE_mul_four (q : ℚ) (hq : (2 : ℚ) ^ (-1022 : ℤ) ≤ |q|) :
    roundNE (q * 4) = roundNE q * 4 := by
  have h0 : q ≠ 0 := by
    intro h0
    rw [h0, abs_zero] at hq
    have : (0 : ℚ) < (2 : ℚ) ^ (-1022 : ℤ) := by positivity
    linarith
  have h4 : q * 4 ≠ 0 := mul_ne_zero h0 (by norm_num)
  have hb : -1022 ≤ binade q := le_binade q _ h0 hq
  obtain ⟨b1, b2⟩ := binade_spec q h0
  have hb4 : binade (q * 4) = binade q + 2 := by
    apply binade_unique
    · rw [abs_mul, zpow_add₀ (by norm_num : (2 : ℚ) ≠ 0)]
      norm_num
      linarith
    · rw [abs_mul, show binade q + 2 + 1 = (binade q + 1) + 2 by ring,
        zpow_add₀ (by norm_num : (2 : ℚ) ≠ 0)]
      norm_num
      linarith
  have hu4 : ulp (q * 4) = ulp q * 4 := by
    unfold ulp
    rw [pow2_eq, pow2_eq, hb4, max_eq_left hb, max_eq_left (by omega),
      show binade q + 2 - 52 = (binade q - 52) + 2 by ring,
      zpow_add₀ (by norm_num : (2 : ℚ) ≠ 0)]
    norm_num
  have hu := ulp_pos q
  unfold roundNE
  rw [if_neg h0, if_neg h4, hu4]
  have : q * 4 / (ulp q * 4) = q / ulp q := by
    field_simp
    ring
  rw [this]
  ring

/-! ## The claims on the classification and on the approximation -/

/-- The binary64 test of line 55 on the grid: for `i, j < 1000` the sample
`(i/1000, j/1000)` passes `distance <= CENTER` exactly when `(i-500)^2 + (j-500)^2 ≤ 250000`. -/
theorem inCircle_grid (i j : Nat) (hi : i < 1000) (hj : j < 1000) :
    inCircle (coordinate i) (coordinate j) = true ↔
      ((i : ℤ) - 500) ^ 2 + ((j : ℤ) - 500) ^ 2 ≤ 250000 := by
  have herr := sumSquares_err i j hi hj
  rw [abs_le] at herr
  obtain ⟨e1, e2⟩ := herr
  set A : ℤ := ((i : ℤ) - 500) ^ 2 + ((j : ℤ) - 500) ^ 2 with hA
  rcases lt_trichotomy A 250000 with hlt | heq | hgt
  · have hA' : (A : ℚ) ≤ 249999 := by
      have : A ≤ 249999 := by omega
      exact_mod_cast this
    have hs : roundNE (squaredOffset (coordinate i) + squaredOffset (coordinate j))
        < 1 / 4 := by
      linarith
    have := fsqrt_le_half _ hs
    constructor
    · intro _; omega
    · intro _
      simp only [inCircle, distance, CENTER, decide_eq_true_eq]
      exact this
  · constructor
    · intro _; omega
    · intro _
      exact boundary_inCircle i j hi hj heq
  · have hA' : (250001 : ℚ) ≤ (A : ℚ) := by
      have : 250001 ≤ A := by omega
      exact_mod_cast this
    have hA2 : (A : ℚ) ≤ 500000 := by
      have := offset_sq_le i hi
      have := offset_sq_le j hj
      have : A ≤ 500000 := by omega
      exact_mod_cast this
    have e52 : (2 : ℚ) ^ (-52 : ℤ) = 2 / 9007199254740992 := by norm_num
    have hs1 : 1 / 4 + (2 : ℚ) ^ (-52 : ℤ)
        ≤ roundNE (squaredOffset (coordinate i) + squaredOffset (coordinate j)) := by
      rw [e52]; linarith
    have hs2 : roundNE (squaredOffset (coordinate i) + squaredOffset (coordinate j))
        < 1 := by
      linarith
    have := half_lt_fsqrt _ hs1 hs2
    constructor
    · intro h
      simp only [inCircle, distance, CENTER, decide_eq_true_eq] at h
      linarith
    · intro h; omega

theorem coordinate_mod (r : Nat) : coordinate (r % 1000) = coordinate r := by
  unfold coordinate
  rw [Nat.mod_mod]

/-- The test of line 55 for arbitrary results `r1`, `r2` of `rand()`. -/
theorem inCircle_iff (r1 r2 : Nat) :
    inCircle (coordinate r1) (coordinate r2) = true ↔
      (((r1 % 1000 : ℕ) : ℤ) - 500) ^ 2 + (((r2 % 1000 : ℕ) : ℤ) - 500) ^ 2 ≤ 250000 := by
  have h := inCircle_grid (r1 % 1000) (r2 % 1000) (Nat.mod_lt _ (by norm_num))
    (Nat.mod_lt _ (by norm_num))
  rw [coordinate_mod, coordinate_mod] at h
  exact h

/-- C7 fails as stated: for the counter values 1 and 3 the value computed by line 91 is a
binary64 number, not the exact ratio `4 * 1 / 3`. -/
theorem C7_not_exact_ratio : approximation 1 3 ≠ some ((4 * 1 : ℚ) / 3) := by
  decide!

/-- C7 as amended: for all counter values with `1 ≤ totalSimulationCount ≤ INT_MAX`, the value
computed by line 91 is the exact ratio `4 * insideCircleCount / totalSimulationCount` rounded
once to the nearest binary64 value; it differs from the exact ratio by at most `2^-53` of it
(no truncation to an integer quotient). -/
theorem C7_approximation_rounded_ratio (insideCircleCount totalSimulationCount : Int)
    (ht1 : 1 ≤ totalSimulationCount) (ht2 : totalSimulationCount ≤ INT_MAX) :
    approximation insideCircleCount totalSimulationCount
        = some (roundNE (4 * (insideCircleCount : ℚ) / (totalSimulationCount : ℚ))) ∧
      |roundNE (4 * (insideCircleCount : ℚ) / (totalSimulationCount : ℚ))
          - 4 * (insideCircleCount : ℚ) / (totalSimulationCount : ℚ)|
        ≤ (2 : ℚ) ^ (-53 : ℤ) * |4 * (insideCircleCount : ℚ) / (totalSimulationCount : ℚ)| := by
  unfold INT_MAX at *
  have ht0 : totalSimulationCount ≠ 0 := by omega
  have htq : (0 : ℚ) < (totalSimulationCount : ℚ) := by exact_mod_cast ht1
  have htq2 : (totalSimulationCount : ℚ) ≤ 2147483647 := by exact_mod_cast ht2
  unfold approximation
  rw [if_neg ht0]
  set q : ℚ := (insideCircleCount : ℚ) / (totalSimulationCount : ℚ) with hq
  have e4 : 4 * (insideCircleCount : ℚ) / (totalSimulationCount : ℚ) = q * 4 := by
    rw [hq]; ring
  rw [e4]
  by_cases hi0 : insideCircleCount = 0
  · have hq0 : q = 0 := by rw [hq, hi0]; simp
    rw [hq0, roundNE_zero, zero_mul, roundNE_zero]
    simp
  · have hiq : (1 : ℚ) ≤ |(insideCircleCount : ℚ)| := by
      have : (1 : ℤ) ≤ |insideCircleCount| := Int.one_le_abs hi0
      exact_mod_cast this
    have hne : q ≠ 0 := by
      rw [hq]
      apply div_ne_zero
      · exact_mod_cast hi0
      · exact ne_of_gt htq
    have hqabs : |q| = |(insideCircleCount : ℚ)| / (totalSimulationCount : ℚ) := by
      rw [hq, abs_div, abs_of_pos htq]
    have hlow : (2 : ℚ) ^ (-1022 : ℤ) ≤ |q| := by
      have h31 : (2 : ℚ) ^ (-31 : ℤ) ≤ |q| := by
        rw [hqabs, le_div_iff₀ htq]
        have : (2 : ℚ) ^ (-31 : ℤ) = 1 / 2147483648 := by norm_num
        rw [this]
        nlinarith
      refine le_trans ?_ h31
      exact zpow_le_zpow_right₀ (by norm_num) (by norm_num)
    have hlow4 : (2 : ℚ) ^ (-1022 : ℤ) ≤ |q * 4| := by
      rw [abs_mul]
      have : |(4 : ℚ)| = 4 := by norm_num
      rw [this]
      have := abs_nonneg q
      linarith
    constructor
    · obtain ⟨K, hK, hr⟩ := roundNE_repr q hne
      have hE : -1022 ≤ max (binade q) (-1022) := le_max_right _ _
      have hr4 : roundNE q * 4 = (K : ℚ) * (2 : ℚ) ^ (max (binade q) (-1022) - 52 + 2) := by
        rw [hr, zpow_add₀ (by norm_num : (2 : ℚ) ≠ 0)]
        norm_num
        ring
      rw [roundNE_mul_four q hlow, hr4, roundNE_grid K _ hK (by omega)]
    · exact roundNE_err_rel (q * 4) hlow4

theorem C7_approximation_rounded_ratio_witness :
    approximation 1 3 = some (roundNE (4 * ((1 : Int) : ℚ) / ((3 : Int) : ℚ))) :=
  (C7_approximation_rounded_ratio 1 3 (by decide) (by decide)).1

/-! ## Runs and invariants -/

theorem run_invariant (T : Int) (P : State → Prop)
    (hstep : ∀ s a s', P s → step T s a = some s' → P s') :
    ∀ (sched : List Action) (s s' : State), P s → run T s sched = some s' → P s' := by
  intro sched
  induction sched with
  | nil =>
    intro s s' hP h
    simp only [run, Option.some.injEq] at h
    subst h
    exact hP
  | cons a rest ih =>
    intro s s' hP h
    simp only [run] at h
    cases hs : step T s a with
    | none => simp [hs] at h
    | some t =>
      rw [hs] at h
      exact ih t s' (hstep s a t hP hs) h

theorem countUpdate_eq (T c : Int) (d : Bool) (u : CountUpdate)
    (h : countUpdate T c d = some u) :
    c ≠ INT_MAX ∧ u.totalSimulationCount = c + 1
      ∧ (c + 1 = T → u.done = true ∧ u.broadcasts = 1)
      ∧ (c + 1 ≠ T → u.done = d) := by
  unfold countUpdate at h
  simp only at h
  split_ifs at h with h1 h2 h3 <;> simp at h <;> subst h <;> simp_all

/-- The shapes a step can take. -/
theorem step_cases (T : Int) (s : State) (a : Action) (s' : State)
    (h : step T s a = some s') :
    (∃ i r1 r2, a = Action.sim i r1 r2 ∧ s.sims.get? i = some SimPc.loopTest ∧
        s' = s.setSim i (if s.done then SimPc.returned else SimPc.drawSample)) ∨
    (∃ i r1 r2 pc, a = Action.sim i r1 r2 ∧ s.sims.get? i = some SimPc.drawSample ∧
        (pc = SimPc.incInside ∨ pc = SimPc.incTotal) ∧ s' = s.setSim i pc) ∨
    (∃ i r1 r2, a = Action.sim i r1 r2 ∧ s.sims.get? i = some SimPc.incInside ∧
        s.insideCircleCount ≠ INT_MAX ∧
        s' = { s with insideCircleCount := s.insideCircleCount + 1
              }.setSim i SimPc.incTotalCounted) ∨
    (∃ i r1 r2 u pc0, a = Action.sim i r1 r2 ∧ s.sims.get? i = some pc0 ∧
        (pc0 = SimPc.incTotal ∨ pc0 = SimPc.incTotalCounted) ∧
        simulationCountLock s = false ∧
        countUpdate T s.totalSimulationCount s.done = some u ∧
        s' = { s with totalSimulationCount := u.totalSimulationCount, done := u.done,
                      printer := if u.broadcasts = 0 then s.printer else wake s.printer
                }.setSim i SimPc.loopTest) ∨
    (∃ p, (a = Action.print ∨ a = Action.spurious) ∧ s' = { s with printer := p } ∧
        (p = PrintPc.returned → s.done = true)) ∨
    (a = Action.print ∧ s.printer = PrintPc.emit ∧
        s' = { s with output := s.output ++ [⟨s.insideCircleCount, s.totalSimulationCount⟩],
                      printer := PrintPc.loopTest }) := by
  cases a with
  | sim i r1 r2 =>
    simp only [step, simulation] at h
    split at h
    · simp at h
    · rename_i hg
      simp only [Option.some.injEq] at h
      exact Or.inl ⟨i, r1, r2, rfl, hg, h.symm⟩
    · rename_i hg
      simp only [Option.some.injEq] at h
      refine Or.inr (Or.inl ⟨i, r1, r2, _, rfl, hg, ?_, h.symm⟩)
      split_ifs <;> simp
    · rename_i hg
      split_ifs at h with hm
      simp only [Option.some.injEq] at h
      exact Or.inr (Or.inr (Or.inl ⟨i, r1, r2, rfl, hg, hm, h.symm⟩))
    · rename_i hg
      unfold totalSection at h
      split_ifs at h with hl
      split at h
      · simp at h
      · rename_i u hu
        simp only [Option.some.injEq] at h
        refine Or.inr (Or.inr (Or.inr (Or.inl
          ⟨i, r1, r2, u, _, rfl, hg, Or.inl rfl, ?_, hu, h.symm⟩)))
        simpa using hl
    · rename_i hg
      unfold totalSection at h
      split_ifs at h with hl
      split at h
      · simp at h
      · rename_i u hu
        simp only [Option.some.injEq] at h
        refine Or.inr (Or.inr (Or.inr (Or.inl
          ⟨i, r1, r2, u, _, rfl, hg, Or.inr rfl, ?_, hu, h.symm⟩)))
        simpa using hl
    · simp at h
  | print =>
    simp only [step, printing] at h
    split at h
    · simp only [Option.some.injEq] at h
      exact Or.inr (Or.inr (Or.inr (Or.inr (Or.inl ⟨_, Or.inl rfl, h.symm, by simp⟩))))
    · simp only [Option.some.injEq] at h
      refine Or.inr (Or.inr (Or.inr (Or.inr (Or.inl ⟨_, Or.inl rfl, h.symm, ?_⟩))))
      intro hp
      by_contra hd
      simp [hd] at hp
    · simp at h
    · simp only [Option.some.injEq] at h
      exact Or.inr (Or.inr (Or.inr (Or.inr (Or.inl ⟨_, Or.inl rfl, h.symm, by simp⟩))))
    · rename_i hp
      simp only [Option.some.injEq] at h
      exact Or.inr (Or.inr (Or.inr (Or.inr (Or.inr ⟨rfl, hp, h.symm⟩))))
    · simp at h
  | spurious =>
    simp only [step] at h
    split at h
    · simp only [Option.some.injEq] at h
      exact Or.inr (Or.inr (Or.inr (Or.inr (Or.inl ⟨_, Or.inr rfl, h.symm, by simp⟩))))
    · simp at h

theorem doneInv_step (T : Int) (s : State) (a : Action) (s' : State)
    (hP : DoneInv T s) (h : step T s a = some s') : DoneInv T s' := by
  unfold DoneInv at *
  rcases step_cases T s a s' h with ⟨i, r1, r2, -, -, rfl⟩ | ⟨i, r1, r2, pc, -, -, -, rfl⟩ |
    ⟨i, r1, r2, -, -, -, rfl⟩ | ⟨i, r1, r2, u, pc0, -, -, -, -, hu, rfl⟩ | ⟨p, -, rfl, -⟩ | ⟨-, -, rfl⟩
  · exact hP
  · exact hP
  · exact hP
  · obtain ⟨-, h2, -, h4⟩ := countUpdate_eq _ _ _ _ hu
    simp only [State.setSim]
    intro hd
    by_cases hc : s.totalSimulationCount + 1 = T
    · omega
    · rw [h4 hc] at hd
      have := hP hd
      omega
  · exact hP
  · exact hP

theorem returnedInv_step (T : Int) (s : State) (a : Action) (s' : State)
    (hP : ReturnedInv s) (h : step T s a = some s') : ReturnedInv s' := by
  unfold ReturnedInv at *
  rcases step_cases T s a s' h with ⟨i, r1, r2, -, -, rfl⟩ | ⟨i, r1, r2, pc, -, -, hpc, rfl⟩ |
    ⟨i, r1, r2, -, -, -, rfl⟩ | ⟨i, r1, r2, u, pc0, -, -, -, hl, hu, rfl⟩ | ⟨p, -, rfl, hp⟩ | ⟨-, -, rfl⟩
  · simp only [State.setSim]
    rintro (hp | hm)
    · exact hP (Or.inl hp)
    · by_cases hd : s.done = true
      · exact hd
      · rcases List.mem_or_eq_of_mem_set hm with hm' | hm'
        · exact hP (Or.inr hm')
        · simp [hd] at hm'
  · simp only [State.setSim]
    rintro (hp | hm)
    · exact hP (Or.inl hp)
    · rcases List.mem_or_eq_of_mem_set hm with hm' | hm'
      · exact hP (Or.inr hm')
      · rcases hpc with rfl | rfl <;> simp at hm'
  · simp only [State.setSim]
    rintro (hp | hm)
    · exact hP (Or.inl hp)
    · rcases List.mem_or_eq_of_mem_set hm with hm' | hm'
      · exact hP (Or.inr hm')
      · simp at hm'
  · obtain ⟨-, h2, h3, h4⟩ := countUpdate_eq _ _ _ _ hu
    simp only [State.setSim]
    intro hr
    by_cases hc : s.totalSimulationCount + 1 = T
    · exact (h3 hc).1
    · rw [h4 hc]
      apply hP
      rcases hr with hp | hm
      · left
        split_ifs at hp with hb
        · exact hp
        · unfold wake at hp
          split at hp
          · simp at hp
          · exact hp
      · rcases List.mem_or_eq_of_mem_set hm with hm' | hm'
        · exact Or.inr hm'
        · simp at hm'
  · simp only
    rintro (hr | hm)
    · exact hp hr
    · exact hP (Or.inr hm)
  · simp only
    rintro (hr | hm)
    · simp at hr
    · exact hP (Or.inr hm)

theorem outputInv_step (T : Int) (s : State) (a : Action) (s' : State)
    (hP : OutputInv s) (h : step T s a = some s') : OutputInv s' := by
  unfold OutputInv at *
  obtain ⟨hs, hle⟩ := hP
  rcases step_cases T s a s' h with ⟨i, r1, r2, -, -, rfl⟩ | ⟨i, r1, r2, pc, -, -, hpc, rfl⟩ |
    ⟨i, r1, r2, -, -, -, rfl⟩ | ⟨i, r1, r2, u, pc0, -, -, -, hl, hu, rfl⟩ | ⟨p, -, rfl, hp⟩ | ⟨-, -, rfl⟩
  · exact ⟨hs, hle⟩
  · exact ⟨hs, hle⟩
  · exact ⟨hs, hle⟩
  · obtain ⟨-, h2, -, -⟩ := countUpdate_eq _ _ _ _ hu
    refine ⟨hs, fun e he => ?_⟩
    have := hle e he
    simp only [State.setSim]
    omega
  · exact ⟨hs, hle⟩
  · simp only
    refine ⟨?_, ?_⟩
    · rw [List.pairwise_append]
      refine ⟨hs, List.pairwise_singleton _ _, ?_⟩
      intro e1 he1 e2 he2
      simp only [List.mem_singleton] at he2
      subst he2
      exact hle e1 he1
    · intro e he
      simp only [List.mem_append, List.mem_singleton] at he
      rcases he with he | rfl
      · exact hle e he
      · exact le_refl _

theorem countP_set_eq (p : SimPc → Bool) (l : List SimPc) (i : Nat) (a b : SimPc)
    (h : l.get? i = some a) :
    (l.set i b).countP p + (if p a then 1 else 0) = l.countP p + (if p b then 1 else 0) := by
  induction l generalizing i with
  | nil => simp at h
  | cons x xs ih =>
    cases i with
    | zero =>
      simp only [List.get?_cons_zero, Option.some.injEq] at h
      subst h
      simp only [List.set_cons_zero, List.countP_cons]
      omega
    | succ j =>
      simp only [List.get?_cons_succ] at h
      have := ih j h
      simp only [List.set_cons_succ, List.countP_cons]
      omega

theorem insideInv_step (T : Int) (N : Nat) (s : State) (a : Action) (s' : State)
    (hP : InsideInv N s) (h : step T s a = some s') : InsideInv N s' := by
  unfold InsideInv pendingTotal at *
  obtain ⟨hi, hn⟩ := hP
  rcases step_cases T s a s' h with ⟨i, r1, r2, -, hg, rfl⟩ | ⟨i, r1, r2, pc, -, hg, hpc, rfl⟩ |
    ⟨i, r1, r2, -, hg, -, rfl⟩ | ⟨i, r1, r2, u, pc0, -, hg, hpc0, hl, hu, rfl⟩ | ⟨p, -, rfl, hp⟩ |
    ⟨-, -, rfl⟩
  · simp only [State.setSim, List.length_set]
    refine ⟨?_, hn⟩
    cases hd : s.done
    · have hc := countP_set_eq (fun pc => decide (pc = SimPc.incTotalCounted)) s.sims i _
        SimPc.drawSample hg
      simp at hc
      simp only [Bool.false_eq_true, if_false]
      omega
    · have hc := countP_set_eq (fun pc => decide (pc = SimPc.incTotalCounted)) s.sims i _
        SimPc.returned hg
      simp at hc
      simp only [if_true]
      omega
  · have hc := countP_set_eq (fun pc => decide (pc = SimPc.incTotalCounted)) s.sims i _ pc hg
    simp only [State.setSim, List.length_set]
    refine ⟨?_, hn⟩
    rcases hpc with rfl | rfl <;> simp at hc <;> omega
  · have hc := countP_set_eq (fun pc => decide (pc = SimPc.incTotalCounted)) s.sims i _
      SimPc.incTotalCounted hg
    simp only [State.setSim, List.length_set]
    refine ⟨?_, hn⟩
    simp at hc
    omega
  · obtain ⟨-, h2, -, -⟩ := countUpdate_eq _ _ _ _ hu
    have hc := countP_set_eq (fun pc => decide (pc = SimPc.incTotalCounted)) s.sims i _
      SimPc.loopTest hg
    simp only [State.setSim, List.length_set]
    refine ⟨?_, hn⟩
    rcases hpc0 with rfl | rfl <;> simp at hc <;> omega
  · exact ⟨hi, hn⟩
  · exact ⟨hi, hn⟩

theorem limitInv_step (T : Int) (N : Nat) (s : State) (a : Action) (s' : State)
    (hP : LimitInv T N s) (h : step T s a = some s') : LimitInv T N s' := by
  unfold LimitInv inFlight at *
  obtain ⟨hn, hf, ht⟩ := hP
  have hle := List.countP_le_length
    SimPc.busy (l := s.sims)
  rcases step_cases T s a s' h with ⟨i, r1, r2, -, hg, rfl⟩ | ⟨i, r1, r2, pc, -, hg, hpc, rfl⟩ |
    ⟨i, r1, r2, -, hg, -, rfl⟩ | ⟨i, r1, r2, u, pc0, -, hg, hpc0, hl, hu, rfl⟩ | ⟨p, -, rfl, hp⟩ |
    ⟨-, -, rfl⟩
  · simp only [State.setSim, List.length_set]
    refine ⟨hn, hf, ?_⟩
    intro hd
    have hc := countP_set_eq SimPc.busy s.sims i _ SimPc.returned hg
    simp [SimPc.busy] at hc
    simp only [hd, if_true]
    have := ht hd
    omega
  · simp only [State.setSim, List.length_set]
    refine ⟨hn, hf, ?_⟩
    intro hd
    have hc := countP_set_eq SimPc.busy s.sims i _ pc hg
    have := ht hd
    rcases hpc with rfl | rfl <;> simp [SimPc.busy] at hc <;> omega
  · simp only [State.setSim, List.length_set]
    refine ⟨hn, hf, ?_⟩
    intro hd
    have hc := countP_set_eq SimPc.busy s.sims i _ SimPc.incTotalCounted hg
    simp [SimPc.busy] at hc
    have := ht hd
    omega
  · obtain ⟨-, h2, h3, h4⟩ := countUpdate_eq _ _ _ _ hu
    have hc := countP_set_eq SimPc.busy s.sims i _ SimPc.loopTest hg
    have hb0 : SimPc.busy pc0 = true := by rcases hpc0 with rfl | rfl <;> rfl
    rw [hb0] at hc
    simp only [SimPc.busy, if_true, Bool.false_eq_true, if_false, add_zero] at hc
    simp only [State.setSim, List.length_set]
    refine ⟨hn, ?_, ?_⟩
    · intro hd
      by_cases hc' : s.totalSimulationCount + 1 = T
      · rw [(h3 hc').1] at hd
        simp at hd
      · rw [h4 hc'] at hd
        have := hf hd
        omega
    · intro hd
      by_cases hc' : s.totalSimulationCount + 1 = T
      · omega
      · rw [h4 hc'] at hd
        have := ht hd
        omega
  · exact ⟨hn, hf, ht⟩
  · exact ⟨hn, hf, ht⟩

theorem reachable_limitInv (T : Int) (N : Nat) (sched : List Action) (s : State)
    (hT : 1 ≤ T) (hs : run T (init N) sched = some s) : LimitInv T N s := by
  refine run_invariant T (LimitInv T N) (limitInv_step T N) sched (init N) s ?_ hs
  refine ⟨by simp [init], ?_, by simp [init]⟩
  intro _
  simp only [init]
  omega

theorem reachable_inv (T : Int) (N : Nat) (sched : List Action) (s : State)
    (hs : run T (init N) sched = some s) :
    DoneInv T s ∧ ReturnedInv s ∧ OutputInv s ∧ InsideInv N s := by
  refine run_invariant T
    (fun s => DoneInv T s ∧ ReturnedInv s ∧ OutputInv s ∧ InsideInv N s) ?_ sched (init N) s ?_ hs
  · rintro s a s' ⟨h1, h2, h3, h4⟩ h
    exact ⟨doneInv_step T s a s' h1 h, returnedInv_step T s a s' h2 h,
      outputInv_step T s a s' h3 h, insideInv_step T N s a s' h4 h⟩
  · refine ⟨?_, ?_, ?_, ?_⟩
    · simp [DoneInv, init]
    · simp [ReturnedInv, init]
    · simp [OutputInv, init]
    · simp [InsideInv, init, pendingTotal, List.countP_replicate]

/-- Size of the overshoot of the limit: with a limit `T ≥ 1` and `N ≥ 1` simulation threads,
`totalSimulationCount` never exceeds `T + N - 1`, and when all simulation threads have
returned it lies between `T` and `T + N - 1`; with a single thread it is exactly `T`. -/
theorem total_within_overshoot (T : Int) (N : Nat) (sched : List Action) (s : State)
    (hT : 1 ≤ T) (hN : 1 ≤ N) (hs : run T (init N) sched = some s) :
    s.totalSimulationCount + 1 ≤ T + N ∧
      ((∀ pc ∈ s.sims, pc = SimPc.returned) →
        T ≤ s.totalSimulationCount ∧ (N = 1 → s.totalSimulationCount = T)) := by
  obtain ⟨hn, hf, ht⟩ := reachable_limitInv T N sched s hT hs
  obtain ⟨-, hr, -, -⟩ := reachable_inv T N sched s hs
  have hbound : s.totalSimulationCount + 1 ≤ T + N := by
    cases hd : s.done
    · have := hf hd
      omega
    · have := (ht hd).2
      omega
  refine ⟨hbound, ?_⟩
  intro hall
  have hne : s.sims ≠ [] := by
    intro he
    rw [he] at hn
    simp at hn
    omega
  obtain ⟨pc, hpc⟩ := List.exists_mem_of_ne_nil _ hne
  have hret : SimPc.returned ∈ s.sims := by
    have := hall pc hpc
    rw [this] at hpc
    exact hpc
  have hd := hr (Or.inr hret)
  refine ⟨(ht hd).1, ?_⟩
  intro h1
  have := (ht hd).1
  subst h1
  omega

/-- The counters stay below `INT_MAX` when `T + N ≤ INT_MAX`: in these runs no increment
overflows, so no step is undefined. -/
theorem counters_below_int_max (T : Int) (N : Nat) (sched : List Action) (s : State)
    (hT : 1 ≤ T) (hTN : T + N ≤ INT_MAX) (hs : run T (init N) sched = some s) :
    s.totalSimulationCount < INT_MAX ∧ s.insideCircleCount < INT_MAX := by
  obtain ⟨hn, hf, ht⟩ := reachable_limitInv T N sched s hT hs
  obtain ⟨-, -, -, hi, -⟩ := reachable_inv T N sched s hs
  have hpend : pendingTotal s ≤ inFlight s := by
    unfold pendingTotal inFlight
    apply List.countP_mono_left
    intro pc _ hpc
    simp only [decide_eq_true_eq] at hpc
    rw [hpc]
    rfl
  have hfl : inFlight s ≤ N := by
    rw [← hn]
    exact List.countP_le_length _
  cases hd : s.done
  · have := hf hd
    constructor <;> omega
  · have := (ht hd).2
    constructor <;> omega

/-! ## The wrapping semantics agrees with `step` when no counter can overflow -/

theorem countP_succ_le (p q : SimPc → Bool) (hpq : ∀ x, p x = true → q x = true) :
    ∀ (l : List SimPc) (i : Nat) (a : SimPc), l.get? i = some a → q a = true → p a = false →
      l.countP p + 1 ≤ l.countP q := by
  intro l
  induction l with
  | nil =>
    intro i a h
    simp at h
  | cons x xs ih =>
    intro i a h hq hp
    have hmono : xs.countP p ≤ xs.countP q :=
      List.countP_mono_left (fun y _ hy => hpq y hy)
    cases i with
    | zero =>
      simp only [List.get?_cons_zero, Option.some.injEq] at h
      subst h
      simp only [List.countP_cons, hq, hp, if_true, Bool.false_eq_true, if_false]
      omega
    | succ j =>
      simp only [List.get?_cons_succ] at h
      have := ih j a h hq hp
      simp only [List.countP_cons]
      have hx : (if p x = true then 1 else 0) ≤ (if q x = true then 1 else 0) := by
        by_cases hpx : p x = true
        · simp [hpx, hpq x hpx]
        · rw [if_neg hpx]
          exact Nat.zero_le _
      omega

/-- When `T + N - 1 ≤ INT_MAX`, no thread of a state that satisfies the invariants stands
before an increment of `INT_MAX`. -/
theorem overflowStep_none (T : Int) (N : Nat) (s : State) (i : Nat)
    (hTN : T + N ≤ INT_MAX + 1)
    (hL : LimitInv T N s) (hI : InsideInv N s) : overflowStep T s i = none := by
  obtain ⟨hn, hf, ht⟩ := hL
  obtain ⟨hi, -⟩ := hI
  have hle : inFlight s ≤ N := by
    rw [← hn]
    exact List.countP_le_length _
  unfold overflowStep
  split
  · rename_i hg
    have hpend : pendingTotal s + 1 ≤ inFlight s :=
      countP_succ_le (fun pc => decide (pc = SimPc.incTotalCounted)) SimPc.busy
        (by intro x hx; simp only [decide_eq_true_eq] at hx; rw [hx]; rfl)
        s.sims i SimPc.incInside hg rfl (by simp)
    have hlt : s.insideCircleCount ≠ INT_MAX := by
      unfold INT_MAX at *
      cases hd : s.done
      · have := hf hd
        omega
      · have := (ht hd).2
        omega
    rw [if_neg hlt]
  · rename_i pc hne hg
    by_cases hpc : pc = SimPc.incTotal ∨ pc = SimPc.incTotalCounted
    · have hb : SimPc.busy pc = true := by rcases hpc with rfl | rfl <;> rfl
      have hone : 0 + 1 ≤ inFlight s := by
        have := countP_succ_le (fun _ => false) SimPc.busy (by intro x hx; simp at hx)
          s.sims i pc hg hb rfl
        simpa [inFlight] using this
      have hlt : s.totalSimulationCount ≠ INT_MAX := by
        unfold INT_MAX at *
        cases hd : s.done
        · have := hf hd
          omega
        · have := (ht hd).2
          omega
      rw [if_neg (by tauto)]
    · rw [if_neg (by tauto)]
  · rfl

theorem stepWrap_eq_step (T : Int) (N : Nat) (s : State) (a : Action)
    (hTN : T + N ≤ INT_MAX + 1)
    (hL : LimitInv T N s) (hI : InsideInv N s) : stepWrap T s a = step T s a := by
  unfold stepWrap
  cases hs : step T s a with
  | some t => rfl
  | none =>
    cases a with
    | sim i r1 r2 => exact overflowStep_none T N s i hTN hL hI
    | print => rfl
    | spurious => rfl

theorem runWrap_eq_run (T : Int) (N : Nat) (hTN : T + N ≤ INT_MAX + 1)
    (sched : List Action) :
    ∀ s : State, LimitInv T N s → InsideInv N s → runWrap T s sched = run T s sched := by
  induction sched with
  | nil =>
    intro s _ _
    rfl
  | cons a rest ih =>
    intro s hL hI
    simp only [runWrap, run, stepWrap_eq_step T N s a hTN hL hI]
    cases hs : step T s a with
    | none => rfl
    | some t =>
      exact ih t (limitInv_step T N s a t hL hs) (insideInv_step T N s a t hI hs)

theorem init_limitInv (T : Int) (N : Nat) (hT : 1 ≤ T) : LimitInv T N (init N) := by
  refine ⟨by simp [init], ?_, by simp [init]⟩
  intro _
  simp only [init]
  omega

theorem init_insideInv (N : Nat) : InsideInv N (init N) := by
  simp [InsideInv, init, pendingTotal, List.countP_replicate]

/-- When no counter can overflow, the runs of the compiled program are the runs of `run`. -/
theorem run_of_runWrap (T : Int) (N : Nat) (sched : List Action) (s : State)
    (hT : 1 ≤ T) (hTN : T + N ≤ INT_MAX + 1) (hs : runWrap T (init N) sched = some s) :
    run T (init N) sched = some s := by
  rw [← runWrap_eq_run T N hTN sched (init N) (init_limitInv T N hT) (init_insideInv N)]
  exact hs

/-- C1, evaluated on the code with limit 1 and two simulation threads: both threads pass the
test `while(!done)` before either increments, so both increment; when both have returned
`totalSimulationCount` is 2, above the limit 1. -/
theorem C1_two_workers_overshoot :
    run 1 (init 2) raceSchedule = some raceFinal ∧
      raceFinal.sims = [SimPc.returned, SimPc.returned] ∧
      raceFinal.totalSimulationCount = 2 := by
  refine ⟨?_, rfl, rfl⟩
  decide!

/-- C2 fails as stated: with one simulation thread whose first sample is the centre
`(0.5, 0.5)`, after the critical section of `insideCircleCount` and before that of
`totalSimulationCount` the state has `insideCircleCount = 1 > 0 = totalSimulationCount`. -/
theorem C2_inside_exceeds_total :
    ∃ s, run 1 (init 1) centreSchedule = some s ∧
      ¬ s.insideCircleCount ≤ s.totalSimulationCount :=
  ⟨centreState, by decide!, by decide⟩

/-- C2 as amended: in every reachable state of a run of the compiled program with limit
`T ≥ 1` and `N` simulation threads such that `T + N - 1 ≤ INT_MAX` (so that no counter
overflows), `insideCircleCount ≤ totalSimulationCount + k`, where `k` is the number of
simulation threads between their two counter updates (current sample counted in
`insideCircleCount`, not yet in `totalSimulationCount`), `k ≤ N`; so
`insideCircleCount ≤ totalSimulationCount` whenever no thread stands between its two
counter updates. -/
theorem C2_inside_le_total_plus_pending (T : Int) (N : Nat) (sched : List Action) (s : State)
    (hT : 1 ≤ T) (hTN : T + N ≤ INT_MAX + 1) (hs : runWrap T (init N) sched = some s) :
    s.insideCircleCount ≤ s.totalSimulationCount + (pendingTotal s : Int) ∧
      pendingTotal s ≤ N ∧
      (pendingTotal s = 0 → s.insideCircleCount ≤ s.totalSimulationCount) := by
  have hr := run_of_runWrap T N sched s hT hTN hs
  obtain ⟨-, -, -, h4, h5⟩ := reachable_inv T N sched s hr
  refine ⟨h4, ?_, ?_⟩
  · rw [← h5]
    exact List.countP_le_length _
  · intro h0
    rw [h0] at h4
    simpa using h4

theorem C2_inside_le_total_plus_pending_witness :
    centreState.insideCircleCount
        ≤ centreState.totalSimulationCount + (pendingTotal centreState : Int) ∧
      pendingTotal centreState ≤ 1 :=
  ⟨(C2_inside_le_total_plus_pending 1 1 centreSchedule centreState
      (by decide) (by decide) (by decide!)).1,
   (C2_inside_le_total_plus_pending 1 1 centreSchedule centreState
      (by decide) (by decide) (by decide!)).2.1⟩

/-- C3, evaluated on the code with limit 1 (below one million) and one simulation thread:
when the simulation thread runs to its end before the first step of the printing thread, the
broadcast of line 67 finds no waiter, the printing thread reads `done` as true at line 87
and returns: the run is complete and nothing has been printed. -/
theorem C3_late_printer_emits_nothing :
    run 1 (init 1) latePrinterSchedule = some latePrinterFinal ∧
      completed latePrinterFinal = true ∧ latePrinterFinal.output = [] := by
  refine ⟨?_, ?_, rfl⟩
  · decide!
  · decide

/-- C4: along every run, no step resets `done`; a step that turns `done` from false to true
is the execution of line 68 by a simulation thread whose increment made
`totalSimulationCount` equal to the limit; once `done` is true no step executes line 68
again; and a thread that has returned has seen `done` set. -/
theorem C4_done_set_once (T : Int) (N : Nat) (sched : List Action) (s s' : State)
    (a : Action) (hs : run T (init N) sched = some s) (ha : step T s a = some s') :
    (s.done = true → s'.done = true) ∧
    (s.done = false → s'.done = true →
        assignsDone T s a = true ∧ s'.totalSimulationCount = T) ∧
    (s.done = true → assignsDone T s a = false) ∧
    ((s.printer = PrintPc.returned ∨ SimPc.returned ∈ s.sims) → s.done = true) := by
  obtain ⟨h1, h2, -, -⟩ := reachable_inv T N sched s hs
  refine ⟨?_, ?_, ?_, h2⟩
  · intro hd
    rcases step_cases T s a s' ha with ⟨i, r1, r2, -, -, rfl⟩ | ⟨i, r1, r2, pc, -, -, -, rfl⟩ |
      ⟨i, r1, r2, -, -, -, rfl⟩ | ⟨i, r1, r2, u, pc0, -, -, -, -, hu, rfl⟩ | ⟨p, -, rfl, -⟩ |
      ⟨-, -, rfl⟩
    · exact hd
    · exact hd
    · exact hd
    · obtain ⟨-, -, h3, h4⟩ := countUpdate_eq _ _ _ _ hu
      simp only [State.setSim]
      by_cases hc : s.totalSimulationCount + 1 = T
      · exact (h3 hc).1
      · rw [h4 hc]; exact hd
    · exact hd
    · exact hd
  · intro hd hd'
    rcases step_cases T s a s' ha with ⟨i, r1, r2, -, -, rfl⟩ | ⟨i, r1, r2, pc, -, -, -, rfl⟩ |
      ⟨i, r1, r2, -, -, -, rfl⟩ | ⟨i, r1, r2, u, pc0, rfl, hg, hpc0, hl, hu, rfl⟩ | ⟨p, -, rfl, -⟩ |
      ⟨-, -, rfl⟩
    · simp [State.setSim, hd] at hd'
    · simp [State.setSim, hd] at hd'
    · simp [State.setSim, hd] at hd'
    · obtain ⟨-, h2', h3, h4⟩ := countUpdate_eq _ _ _ _ hu
      simp only [State.setSim] at hd' ⊢
      by_cases hc : s.totalSimulationCount + 1 = T
      · refine ⟨?_, by rw [h2']; exact hc⟩
        rcases hpc0 with rfl | rfl
        · have hg' : s.sims[i]? = some SimPc.incTotal := by simpa using hg
          simp [assignsDone, hl, hc, hg']
        · have hg' : s.sims[i]? = some SimPc.incTotalCounted := by simpa using hg
          simp [assignsDone, hl, hc, hg']
      · rw [h4 hc, hd] at hd'
        simp at hd'
    · simp [hd] at hd'
    · simp [hd] at hd'
  · intro hd
    have hT := h1 hd
    cases a with
    | sim i r1 r2 =>
      simp only [assignsDone, Bool.and_eq_false_imp, decide_eq_false_iff_not]
      intro _
      omega
    | print => rfl
    | spurious => rfl

theorem C4_done_set_once_witness :
    assignsDone 1 beforeLastIncrement (Action.sim 0 0 0) = true ∧
      afterLastIncrement.totalSimulationCount = 1 :=
  (C4_done_set_once 1 1 [Action.sim 0 0 0, Action.sim 0 0 0]
    beforeLastIncrement afterLastIncrement (Action.sim 0 0 0) (by decide!) (by decide!)).2.1
    rfl rfl

/-- C6: for all results `r1`, `r2` of `rand()`, i.e. for every sample `(i/1000, j/1000)` with
`i = r1 % 1000`, `j = r2 % 1000` that the sampler can produce, the test `distance <= CENTER`
of line 55, computed in binary64, succeeds exactly when `(i-500)^2 + (j-500)^2 ≤ 250000` (the
points at distance exactly one half are inside).  In that case the thread that draws the
sample next runs lines 57-59 and leaves `insideCircleCount` incremented by one; otherwise it
goes straight to lines 63-74, and its round ends with `insideCircleCount` unchanged. -/
theorem C6_closed_boundary (r1 r2 : Nat) :
    (inCircle (coordinate r1) (coordinate r2) = true ↔
      (((r1 % 1000 : ℕ) : ℤ) - 500) ^ 2 + (((r2 % 1000 : ℕ) : ℤ) - 500) ^ 2 ≤ 250000) ∧
    (∀ (T : Int) (s : State) (k : Nat), s.sims.get? k = some SimPc.drawSample →
      (((r1 % 1000 : ℕ) : ℤ) - 500) ^ 2 + (((r2 % 1000 : ℕ) : ℤ) - 500) ^ 2 ≤ 250000 →
      s.insideCircleCount ≠ INT_MAX →
      run T s [Action.sim k r1 r2, Action.sim k r1 r2]
        = some ({ s with insideCircleCount := s.insideCircleCount + 1
                  }.setSim k SimPc.incTotalCounted)) ∧
    (∀ (T : Int) (s : State) (k : Nat), s.sims.get? k = some SimPc.drawSample →
      ¬ (((r1 % 1000 : ℕ) : ℤ) - 500) ^ 2 + (((r2 % 1000 : ℕ) : ℤ) - 500) ^ 2 ≤ 250000 →
      simulation T s k r1 r2 = some (s.setSim k SimPc.incTotal) ∧
      ∀ s' : State, simulation T (s.setSim k SimPc.incTotal) k r1 r2 = some s' →
        s'.insideCircleCount = s.insideCircleCount ∧ s'.sims.get? k = some SimPc.loopTest) := by
  have key := inCircle_iff r1 r2
  refine ⟨key, ?_, ?_⟩
  · intro T s k hk hA hmax
    have hlen : k < s.sims.length := by
      rw [List.get?_eq_some] at hk
      exact hk.1
    have h1 : simulation T s k r1 r2 = some (s.setSim k SimPc.incInside) := by
      unfold simulation
      rw [hk]
      simp only [key.mpr hA, if_true]
    have hk2 : (s.setSim k SimPc.incInside).sims.get? k = some SimPc.incInside := by
      simp [State.setSim, hlen]
    have h2 : simulation T (s.setSim k SimPc.incInside) k r1 r2
        = some ({ s with insideCircleCount := s.insideCircleCount + 1
                  }.setSim k SimPc.incTotalCounted) := by
      unfold simulation
      rw [hk2]
      simp only
      rw [if_neg (by simpa [State.setSim] using hmax)]
      simp [State.setSim]
    simp only [run, step, h1, h2]
  · intro T s k hk hA
    have hlen : k < s.sims.length := by
      rw [List.get?_eq_some] at hk
      exact hk.1
    have hfalse : inCircle (coordinate r1) (coordinate r2) = false := by
      cases h : inCircle (coordinate r1) (coordinate r2)
      · rfl
      · exact absurd (key.mp h) hA
    refine ⟨?_, ?_⟩
    · unfold simulation
      rw [hk]
      simp only [hfalse, Bool.false_eq_true, if_false]
    · intro s' hs'
      have hk2 : (s.setSim k SimPc.incTotal).sims.get? k = some SimPc.incTotal := by
        simp [State.setSim, hlen]
      unfold simulation at hs'
      rw [hk2] at hs'
      simp only at hs'
      unfold totalSection at hs'
      split_ifs at hs' with hl
      split at hs'
      · simp at hs'
      · simp only [Option.some.injEq] at hs'
        subst hs'
        simp [State.setSim, hlen]

theorem C6_closed_boundary_witness :
    inCircle (coordinate 12200) (coordinate 7900) = true ∧
      run 5 beforeDraw [Action.sim 0 12200 7900, Action.sim 0 12200 7900] = some afterCounted :=
  ⟨(C6_closed_boundary 12200 7900).1.mpr (by decide),
   (C6_closed_boundary 12200 7900).2.1 5 beforeDraw 0 (by decide) (by decide) (by decide)⟩

/-- C9: for every previous count `c` whose increment is defined and every limit `T`, the
critical section of lines 63-74 leaves the count `c + 1` and makes at most one broadcast: one
broadcast and `done = true` when `c + 1 = T`; one broadcast and `done` unchanged when
`c + 1 ≠ T` and `c + 1` is a multiple of one million; no broadcast and `done` unchanged
otherwise. -/
theorem C9_count_update (T c : Int) (d : Bool) (hc : c ≠ INT_MAX) :
    ∃ u, countUpdate T c d = some u ∧ u.totalSimulationCount = c + 1 ∧ u.broadcasts ≤ 1 ∧
      (c + 1 = T → u.broadcasts = 1 ∧ u.done = true) ∧
      (c + 1 ≠ T → MILLION ∣ c + 1 → u.broadcasts = 1 ∧ u.done = d) ∧
      (c + 1 ≠ T → ¬ MILLION ∣ c + 1 → u.broadcasts = 0 ∧ u.done = d) := by
  unfold countUpdate
  simp only [hc, if_false]
  by_cases h1 : c + 1 = T
  · simp [h1]
  · by_cases h2 : Int.tmod (c + 1) MILLION = 0
    · have hd : MILLION ∣ c + 1 := Int.dvd_of_tmod_eq_zero h2
      simp [h1, h2, hd]
    · have hd : ¬ MILLION ∣ c + 1 := fun hd => h2 (Int.tmod_eq_zero_of_dvd hd)
      simp [h1, h2, hd]

theorem C9_count_update_witness :
    ∃ u, countUpdate 3000000 999999 false = some u ∧ u.totalSimulationCount = 999999 + 1 ∧
      u.broadcasts ≤ 1 ∧
      ((999999 : Int) + 1 = 3000000 → u.broadcasts = 1 ∧ u.done = true) ∧
      ((999999 : Int) + 1 ≠ 3000000 → MILLION ∣ 999999 + 1 → u.broadcasts = 1 ∧ u.done = false) ∧
      ((999999 : Int) + 1 ≠ 3000000 → ¬ MILLION ∣ 999999 + 1 →
        u.broadcasts = 0 ∧ u.done = false) :=
  C9_count_update 3000000 999999 false (by decide)

/-! ## The claims on `main` -/

/-- C5, evaluated on the code: `main` compares `n_threads` with nothing.  For every parsed
worker count above `MAX_THREADS` (1001 for instance) its first use of the count is the
evaluation of `tid[n_threads]` at line 133, outside the array; no error has been reported and
the process has not exited before. -/
theorem C5_no_check_of_worker_count (n_threads : Int) (createFails : Int → Bool)
    (h : (MAX_THREADS : Int) < n_threads) :
    main n_threads createFails = [MainEvent.outOfBounds n_threads] := by
  unfold main tid
  have : ¬ (0 ≤ n_threads ∧ n_threads < (MAX_THREADS : Int)) := by omega
  simp [this]

theorem C5_no_check_of_worker_count_witness :
    main 1001 (fun _ => false) = [MainEvent.outOfBounds 1001] :=
  C5_no_check_of_worker_count 1001 (fun _ => false) (by decide)

/-- C10, evaluated on the code at the largest worker count of the CLI contract,
`n_threads = MAX_THREADS = 1000`: the handle of the printing thread is `tid[1000]`, which is
not an element of the `MAX_THREADS`-entry array. -/
theorem C10_printing_slot_out_of_bounds (createFails : Int → Bool) :
    tid 1000 = none ∧ main 1000 createFails = [MainEvent.outOfBounds 1000] := by
  constructor
  · decide
  · unfold main
    have : tid 1000 = none := by decide
    simp [this]

theorem joinLoop_in_bounds (l : List Int) (hl : ∀ i ∈ l, tid i ≠ none) :
    ∀ e ∈ joinLoop l, ∀ k, e ≠ MainEvent.outOfBounds k := by
  induction l with
  | nil => simp [joinLoop]
  | cons i rest ih =>
    have hi := hl i (List.mem_cons_self _ _)
    have hr : ∀ j ∈ rest, tid j ≠ none := fun j hj => hl j (List.mem_cons_of_mem _ hj)
    unfold joinLoop
    cases hti : tid i with
    | none => exact absurd hti hi
    | some v =>
      intro e he k
      simp only [List.mem_cons] at he
      rcases he with rfl | he
      · simp
      · exact ih hr e he k

theorem createLoop_in_bounds (f : Int → Bool) (joins l : List Int)
    (hj : ∀ i ∈ joins, tid i ≠ none) (hl : ∀ i ∈ l, tid i ≠ none) :
    ∀ e ∈ createLoop f joins l, ∀ k, e ≠ MainEvent.outOfBounds k := by
  induction l with
  | nil => simpa [createLoop] using joinLoop_in_bounds joins hj
  | cons i rest ih =>
    have hi := hl i (List.mem_cons_self _ _)
    have hr : ∀ j ∈ rest, tid j ≠ none := fun j hj => hl j (List.mem_cons_of_mem _ hj)
    unfold createLoop
    cases hti : tid i with
    | none => exact absurd hti hi
    | some v =>
      intro e he k
      simp only at he
      split_ifs at he
      · simp only [List.mem_cons, List.mem_singleton, List.not_mem_nil, or_false] at he
        rcases he with rfl | rfl <;> simp
      · simp only [List.mem_cons] at he
        rcases he with rfl | he
        · simp
        · exact ih hr e he k

theorem loopIndices_in_bounds (n : Int) (hn : n ≤ (MAX_THREADS : Int)) :
    ∀ i ∈ loopIndices n, tid i ≠ none := by
  intro i hi
  simp only [loopIndices, List.mem_map, List.mem_range] at hi
  obtain ⟨k, hk, rfl⟩ := hi
  have h0 : (0 : Int) ≤ Int.ofNat k := Int.ofNat_nonneg k
  have h1 : Int.ofNat k < (MAX_THREADS : Int) := by
    have : (k : Int) < n := by omega
    show (k : Int) < _
    omega
  have h2 : k < MAX_THREADS := by omega
  simp [tid, h2]

/-- Every index of `tid` used by `main` is inside the array when the worker count is below
`MAX_THREADS`. -/
theorem main_in_bounds (n_threads : Int) (createFails : Int → Bool)
    (h0 : 0 ≤ n_threads) (h1 : n_threads < (MAX_THREADS : Int)) :
    ∀ e ∈ main n_threads createFails, ∀ k, e ≠ MainEvent.outOfBounds k := by
  unfold main
  have ht : tid n_threads = some n_threads.toNat := by simp [tid, h0, h1]
  rw [ht]
  intro e he k
  simp only at he
  split_ifs at he
  · simp only [List.mem_cons, List.mem_singleton, List.not_mem_nil, or_false] at he
    rcases he with rfl | rfl <;> simp
  · simp only [List.mem_cons] at he
    rcases he with rfl | he
    · simp
    · exact createLoop_in_bounds createFails _ _
        (loopIndices_in_bounds _ (by omega)) (loopIndices_in_bounds _ (by omega)) e he k

end MontePi
